import Mathlib

/-
  Verification of the chunk-array core of the `terramine-rs` voxel engine.

  The definitions below are a shallow embedding of
  `src/app/utils/terrain/chunk/chunk_array.rs` and the data model it uses.
  Machine integers are modelled as `Nat`/`Int`; Rust `f32` values that only
  ever hold exactly-representable quantities are modelled over `ℚ`/`ℝ`;
  fallible or panicking code paths are modelled with `Option`/`Except`.
  Parts of the repository that are referenced by `chunk_array.rs` but whose
  source files are not present (the `Chunk` type itself, the `cfg` constants,
  the `reinterpreter` serialization primitives, the spatial iterator helpers
  and the external `huffman_compress` crate) are modelled from the spec; each
  such definition carries a doc comment saying so.
-/

set_option maxHeartbeats 1000000

/-- 3D vector of signed integers (`math_linear`'s `Int3`). -/
structure Int3 where
  x : Int
  y : Int
  z : Int
deriving DecidableEq

/-- 3D vector of unsigned sizes (`math_linear`'s `USize3`). -/
structure USize3 where
  x : Nat
  y : Nat
  z : Nat
deriving DecidableEq

def Int3.add (a b : Int3) : Int3 := ⟨a.x + b.x, a.y + b.y, a.z + b.z⟩

def Int3.sub (a b : Int3) : Int3 := ⟨a.x - b.x, a.y - b.y, a.z - b.z⟩

instance : Add Int3 := ⟨Int3.add⟩

instance : Sub Int3 := ⟨Int3.sub⟩

@[simp] theorem Int3.add_x (a b : Int3) : (a + b).x = a.x + b.x := rfl

@[simp] theorem Int3.add_y (a b : Int3) : (a + b).y = a.y + b.y := rfl

@[simp] theorem Int3.add_z (a b : Int3) : (a + b).z = a.z + b.z := rfl

@[simp] theorem Int3.sub_x (a b : Int3) : (a - b).x = a.x - b.x := rfl

@[simp] theorem Int3.sub_y (a b : Int3) : (a - b).y = a.y - b.y := rfl

@[simp] theorem Int3.sub_z (a b : Int3) : (a - b).z = a.z - b.z := rfl

/-- Componentwise scalar division; Rust's `/` on `i32` truncates toward zero,
which is `Int.tdiv`. -/
def Int3.divScalar (a : Int3) (k : Int) : Int3 := ⟨a.x.tdiv k, a.y.tdiv k, a.z.tdiv k⟩

/-- Componentwise scalar multiplication. -/
def Int3.mulScalar (a : Int3) (k : Int) : Int3 := ⟨a.x * k, a.y * k, a.z * k⟩

/-- `Int3::from(USize3)`. -/
def Int3.ofUSize3 (s : USize3) : Int3 := ⟨s.x, s.y, s.z⟩

/-- `USize3::from(Int3)` on nonnegative vectors. -/
def USize3.ofInt3 (p : Int3) : USize3 := ⟨p.x.toNat, p.y.toNat, p.z.toNat⟩

def Int3.ZERO : Int3 := ⟨0, 0, 0⟩

def Int3.ONE : Int3 := ⟨1, 1, 1⟩

namespace ChunkArray

/-- `ChunkArray::volume`: chunk count `W·H·D`. -/
def volume (arr_sizes : USize3) : Nat := arr_sizes.x * arr_sizes.y * arr_sizes.z

/-- `ChunkArray::coord_idx_to_pos`:
`Int3::from(coord_idx) - Int3::from(sizes) / 2`. -/
def coord_idx_to_pos (sizes : USize3) (coord_idx : USize3) : Int3 :=
  Int3.ofUSize3 coord_idx - (Int3.ofUSize3 sizes).divScalar 2

/-- `ChunkArray::pos_to_coord_idx`: shift by `sizes / 2` and bounds-check each
component against `[0, sizes_i)`. -/
def pos_to_coord_idx (sizes : USize3) (pos : Int3) : Option USize3 :=
  let s := Int3.ofUSize3 sizes
  let shifted := pos + s.divScalar 2
  if 0 ≤ shifted.x ∧ shifted.x < s.x ∧
     0 ≤ shifted.y ∧ shifted.y < s.y ∧
     0 ≤ shifted.z ∧ shifted.z < s.z
  then some (USize3.ofInt3 shifted)
  else none

/-- Modelled from the spec: `sdex::get_index` is not in the sources; the spec
fixes linearization as row-major order over `(x,y,z)` with `z` fastest. -/
def coord_idx_to_idx (sizes : USize3) (coord_idx : USize3) : Nat :=
  (coord_idx.x * sizes.y + coord_idx.y) * sizes.z + coord_idx.z

/-- `ChunkArray::pos_to_idx`: compose `pos_to_coord_idx` and `coord_idx_to_idx`. -/
def pos_to_idx (sizes : USize3) (pos : Int3) : Option Nat :=
  (pos_to_coord_idx sizes pos).map (coord_idx_to_idx sizes)

/-- Modelled from the spec: `iterator::idx_to_coord_idx` is not in the
sources; the spec fixes it as the row-major inverse of `coord_idx_to_idx`. -/
def idx_to_coord_idx (idx : Nat) (sizes : USize3) : USize3 :=
  ⟨idx / (sizes.y * sizes.z), (idx / sizes.z) % sizes.y, idx % sizes.z⟩

/-- `ChunkArray::idx_to_pos`. -/
def idx_to_pos (idx : Nat) (sizes : USize3) : Int3 :=
  coord_idx_to_pos sizes (idx_to_coord_idx idx sizes)

end ChunkArray

/-- C6: for every `sizes` and every 3d index `c` with `c_i < sizes_i`
componentwise, `pos_to_coord_idx (coord_idx_to_pos c) = some c`; and for
every linear index `i < W·H·D`, `coord_idx_to_idx (idx_to_coord_idx i) = i`. -/
theorem C6_index_round_trip (sizes c : USize3) (i : Nat)
    (hc : c.x < sizes.x ∧ c.y < sizes.y ∧ c.z < sizes.z)
    (_hi : i < ChunkArray.volume sizes) :
    ChunkArray.pos_to_coord_idx sizes (ChunkArray.coord_idx_to_pos sizes c) = some c ∧
    ChunkArray.coord_idx_to_idx sizes (ChunkArray.idx_to_coord_idx i sizes) = i := by
  obtain ⟨hx, hy, hz⟩ := hc
  constructor
  · simp only [ChunkArray.pos_to_coord_idx, ChunkArray.coord_idx_to_pos,
      Int3.ofUSize3, Int3.divScalar, Int3.add_x, Int3.add_y, Int3.add_z,
      Int3.sub_x, Int3.sub_y, Int3.sub_z]
    rw [if_pos]
    · simp only [USize3.ofInt3, Option.some.injEq]
      cases c
      simp only [USize3.mk.injEq]
      refine ⟨?_, ?_, ?_⟩ <;>
        simp only [Int3.add_x, Int3.add_y, Int3.add_z,
          Int3.sub_x, Int3.sub_y, Int3.sub_z] <;> omega
    · refine ⟨?_, ?_, ?_, ?_, ?_, ?_⟩ <;> omega
  · simp only [ChunkArray.coord_idx_to_idx, ChunkArray.idx_to_coord_idx]
    have h1 : i / (sizes.y * sizes.z) = i / sizes.z / sizes.y := by
      rw [Nat.div_div_eq_div_mul, Nat.mul_comm]
    have h2 := Nat.div_add_mod (i / sizes.z) sizes.y
    have h3 := Nat.div_add_mod i sizes.z
    rw [h1, Nat.mul_comm (i / sizes.z / sizes.y) sizes.y, h2,
      Nat.mul_comm (i / sizes.z) sizes.z, h3]

/-- Witness for C6 at `sizes = (2,3,4)`, `c = (1,2,3)`, `i = 17`. -/
theorem C6_index_round_trip_witness :
    ChunkArray.pos_to_coord_idx ⟨2, 3, 4⟩
      (ChunkArray.coord_idx_to_pos ⟨2, 3, 4⟩ ⟨1, 2, 3⟩) = some ⟨1, 2, 3⟩ ∧
    ChunkArray.coord_idx_to_idx ⟨2, 3, 4⟩
      (ChunkArray.idx_to_coord_idx 17 ⟨2, 3, 4⟩) = 17 :=
  C6_index_round_trip ⟨2, 3, 4⟩ ⟨1, 2, 3⟩ 17 (by decide) (by decide)

/-
  `ChunkArray::count_voxel_frequencies`.  The `HashMap<Id, usize>` is
  modelled as an association list with unique keys; `freqFind` is
  `HashMap::get`, `freqBump` is one iteration of the source's loop body
  (`get_mut` + increment, or `insert id 1` when absent).
-/

/-- One step of the `count_voxel_frequencies` loop: increment the entry for
`id` in place, or insert `(id, 1)` when no entry exists. -/
def freqBump (m : List (Nat × Nat)) (id : Nat) : List (Nat × Nat) :=
  match m with
  | [] => [(id, 1)]
  | (k, v) :: rest => if k = id then (k, v + 1) :: rest else (k, v) :: freqBump rest id

/-- `HashMap::get` on the association-list model. -/
def freqFind (m : List (Nat × Nat)) (id : Nat) : Option Nat :=
  match m with
  | [] => none
  | (k, v) :: rest => if k = id then some v else freqFind rest id

/-- Sum of all stored counts. -/
def freqTotal (m : List (Nat × Nat)) : Nat := (m.map Prod.snd).sum

/-- `ChunkArray::count_voxel_frequencies`: fold the loop body over the ids. -/
def ChunkArray.count_voxel_frequencies (voxel_ids : List Nat) : List (Nat × Nat) :=
  voxel_ids.foldl freqBump []

theorem freqFind_bump_self (m : List (Nat × Nat)) (id : Nat) :
    freqFind (freqBump m id) id = some ((freqFind m id).getD 0 + 1) := by
  induction m with
  | nil => simp [freqBump, freqFind]
  | cons kv rest ih =>
    obtain ⟨k, v⟩ := kv
    by_cases h : k = id
    · simp [freqBump, freqFind, h]
    · simp [freqBump, freqFind, h, ih]

theorem freqFind_bump_other (m : List (Nat × Nat)) (id j : Nat) (h : j ≠ id) :
    freqFind (freqBump m id) j = freqFind m j := by
  induction m with
  | nil => simp [freqBump, freqFind, Ne.symm h]
  | cons kv rest ih =>
    obtain ⟨k, v⟩ := kv
    by_cases hk : k = id
    · subst hk
      simp [freqBump, freqFind, Ne.symm h]
    · by_cases hj : k = j
      · subst hj
        simp [freqBump, freqFind, hk]
      · simp [freqBump, freqFind, hk, hj, ih]

theorem freqFind_bump_isSome (m : List (Nat × Nat)) (id j : Nat) :
    (freqFind (freqBump m id) j).isSome ↔ (freqFind m j).isSome ∨ j = id := by
  by_cases h : j = id
  · subst h
    simp [freqFind_bump_self]
  · simp [freqFind_bump_other m id j h, h]

theorem freqTotal_bump (m : List (Nat × Nat)) (id : Nat) :
    freqTotal (freqBump m id) = freqTotal m + 1 := by
  induction m with
  | nil => simp [freqBump, freqTotal]
  | cons kv rest ih =>
    obtain ⟨k, v⟩ := kv
    by_cases h : k = id
    · simp [freqBump, freqTotal, h]
      omega
    · simp only [freqBump, freqTotal, if_neg h, List.map_cons, List.sum_cons]
      simp only [freqTotal] at ih
      omega

theorem freqFind_foldl_getD (ids : List Nat) :
    ∀ (m : List (Nat × Nat)) (j : Nat),
      (freqFind (ids.foldl freqBump m) j).getD 0 =
        (freqFind m j).getD 0 + ids.count j := by
  induction ids with
  | nil => intro m j; simp
  | cons id rest ih =>
    intro m j
    rw [List.foldl_cons, ih]
    by_cases h : j = id
    · subst h
      rw [freqFind_bump_self]
      simp only [Option.getD_some, List.count_cons]
      simp
      omega
    · rw [freqFind_bump_other m id j h]
      simp [List.count_cons, h]

theorem freqFind_foldl_isSome (ids : List Nat) :
    ∀ (m : List (Nat × Nat)) (j : Nat),
      (freqFind (ids.foldl freqBump m) j).isSome ↔
        (freqFind m j).isSome ∨ j ∈ ids := by
  induction ids with
  | nil => intro m j; simp
  | cons id rest ih =>
    intro m j
    rw [List.foldl_cons, ih, freqFind_bump_isSome, List.mem_cons]
    tauto

theorem freqTotal_foldl (ids : List Nat) :
    ∀ m : List (Nat × Nat),
      freqTotal (ids.foldl freqBump m) = freqTotal m + ids.length := by
  induction ids with
  | nil => intro m; simp
  | cons id rest ih =>
    intro m
    rw [List.foldl_cons, ih, freqTotal_bump]
    simp [Nat.add_assoc, Nat.add_comm 1 rest.length]

/-- C10: `count_voxel_frequencies` maps exactly the occurring ids, each to its
number of occurrences, and the counts sum to the length of the sequence. -/
theorem C10_frequency_count (voxel_ids : List Nat) (id n : Nat) :
    (freqFind (ChunkArray.count_voxel_frequencies voxel_ids) id = some n ↔
      id ∈ voxel_ids ∧ n = voxel_ids.count id) ∧
    freqTotal (ChunkArray.count_voxel_frequencies voxel_ids) = voxel_ids.length := by
  have hru : ChunkArray.count_voxel_frequencies voxel_ids = voxel_ids.foldl freqBump [] :=
    rfl
  constructor
  · constructor
    · intro h
      have hs : (freqFind (voxel_ids.foldl freqBump []) id).isSome := by
        rw [← hru, h]; rfl
      rw [freqFind_foldl_isSome] at hs
      have hmem : id ∈ voxel_ids := by
        rcases hs with hs | hs
        · simp [freqFind] at hs
        · exact hs
      have hg := freqFind_foldl_getD voxel_ids [] id
      rw [← hru, h] at hg
      simp only [Option.getD_some, freqFind, Option.getD_none] at hg
      exact ⟨hmem, by omega⟩
    · rintro ⟨hmem, rfl⟩
      have hs : (freqFind (voxel_ids.foldl freqBump []) id).isSome := by
        rw [freqFind_foldl_isSome]
        exact Or.inr hmem
      obtain ⟨v, hv⟩ := Option.isSome_iff_exists.mp hs
      have hg := freqFind_foldl_getD voxel_ids [] id
      rw [hv] at hg
      simp only [Option.getD_some, freqFind, Option.getD_none] at hg
      rw [hru, hv, hg]
      simp
  · rw [hru, freqTotal_foldl]
    simp [freqTotal]

/-
  Huffman codec.  Modelled from the spec (§4.5): the external
  `huffman_compress` crate is not part of this repository; the spec fixes its
  contract as "a Huffman-coded bitstream over `V` symbols using the frequency
  table; the decoder reconstructs the canonical code from the frequencies and
  decodes `V` ids".  The code tree is built deterministically by repeatedly
  merging the two lightest trees of a weight-sorted work list.
-/

/-- Binary Huffman code tree over voxel ids. -/
inductive HTree where
  | leaf (id : Nat)
  | node (l r : HTree)
deriving DecidableEq

/-- Number of tree nodes (leaves included). -/
def HTree.size : HTree → Nat
  | leaf _ => 1
  | node l r => l.size + r.size + 1

/-- Symbols stored at the leaves. -/
def HTree.leaves : HTree → List Nat
  | leaf id => [id]
  | node l r => l.leaves ++ r.leaves

/-- Insert a weighted tree into a weight-sorted work list (after equals). -/
def hInsert (t : HTree × Nat) : List (HTree × Nat) → List (HTree × Nat)
  | [] => [t]
  | x :: xs => if x.2 ≤ t.2 then x :: hInsert t xs else t :: x :: xs

theorem hInsert_length (t : HTree × Nat) (l : List (HTree × Nat)) :
    (hInsert t l).length = l.length + 1 := by
  induction l with
  | nil => rfl
  | cons x xs ih =>
    by_cases h : x.2 ≤ t.2 <;> simp [hInsert, h, ih]

theorem hInsert_mem (t x : HTree × Nat) (l : List (HTree × Nat)) :
    x ∈ hInsert t l ↔ x = t ∨ x ∈ l := by
  induction l with
  | nil => simp [hInsert]
  | cons y ys ih =>
    by_cases h : y.2 ≤ t.2
    · rw [hInsert, if_pos h, List.mem_cons, ih, List.mem_cons]
      tauto
    · rw [hInsert, if_neg h, List.mem_cons, List.mem_cons]

/-- Repeatedly merge the two lightest trees of the work list. -/
def hBuildLoop : List (HTree × Nat) → Option HTree
  | [] => none
  | [t] => some t.1
  | a :: b :: rest => hBuildLoop (hInsert (.node a.1 b.1, a.2 + b.2) rest)
termination_by l => l.length
decreasing_by
  simp [hInsert_length]

/-- Build the code tree from a frequency table. -/
def buildTree (freqs : List (Nat × Nat)) : Option HTree :=
  hBuildLoop (freqs.map fun kv => (HTree.leaf kv.1, kv.2))

/-- Code of a symbol: the path to its (leftmost) leaf, `false` = left. -/
def encodeSym (t : HTree) (s : Nat) : Option (List Bool) :=
  match t with
  | .leaf id => if id = s then some [] else none
  | .node l r =>
    match encodeSym l s with
    | some p => some (false :: p)
    | none => (encodeSym r s).map fun p => true :: p

/-- Concatenated codes of a symbol sequence (`book.encode` per symbol). -/
def encodeAll (t : HTree) (ids : List Nat) : Option (List Bool) :=
  match ids with
  | [] => some []
  | id :: rest => do
    let p ← encodeSym t id
    let ps ← encodeAll t rest
    some (p ++ ps)

/-- Decode one symbol by walking the tree along the bits. -/
def decodeOne (t : HTree) (bits : List Bool) : Option (Nat × List Bool) :=
  match t with
  | .leaf id => some (id, bits)
  | .node l r =>
    match bits with
    | [] => none
    | b :: rest => decodeOne (if b then r else l) rest

/-- Decode `n` symbols (the spec's "decodes `V` ids"). -/
def decodeN (n : Nat) (t : HTree) (bits : List Bool) : Option (List Nat × List Bool) :=
  match n with
  | 0 => some ([], bits)
  | n + 1 => do
    let (s, rest) ← decodeOne t bits
    let (ss, rest2) ← decodeN n t rest
    some (s :: ss, rest2)

theorem decodeOne_encodeSym (t : HTree) (s : Nat) (p : List Bool)
    (h : encodeSym t s = some p) (bs : List Bool) :
    decodeOne t (p ++ bs) = some (s, bs) := by
  induction t generalizing p with
  | leaf id =>
    simp only [encodeSym] at h
    by_cases hid : id = s
    · rw [if_pos hid] at h
      obtain rfl : ([] : List Bool) = p := by simpa using h
      simp [decodeOne, hid]
    · rw [if_neg hid] at h
      exact absurd h (by simp)
  | node l r ihl ihr =>
    simp only [encodeSym] at h
    cases hl : encodeSym l s with
    | some q =>
      rw [hl] at h
      obtain rfl : false :: q = p := by simpa using h
      simpa [decodeOne] using ihl q hl
    | none =>
      rw [hl] at h
      cases hr : encodeSym r s with
      | some q =>
        rw [hr] at h
        obtain rfl : true :: q = p := by simpa using h
        simpa [decodeOne] using ihr q hr
      | none =>
        rw [hr] at h
        exact absurd h (by simp)

theorem encodeSym_isSome_of_mem_leaves (t : HTree) (s : Nat) (h : s ∈ t.leaves) :
    (encodeSym t s).isSome := by
  induction t with
  | leaf id =>
    simp only [HTree.leaves, List.mem_singleton] at h
    simp [encodeSym, h]
  | node l r ihl ihr =>
    simp only [HTree.leaves, List.mem_append] at h
    simp only [encodeSym]
    rcases h with h | h
    · obtain ⟨p, hp⟩ := Option.isSome_iff_exists.mp (ihl h)
      simp [hp]
    · cases hl : encodeSym l s with
      | some q => simp
      | none =>
        obtain ⟨p, hp⟩ := Option.isSome_iff_exists.mp (ihr h)
        simp [hp]

theorem encodeSym_length_le (t : HTree) (s : Nat) (p : List Bool)
    (h : encodeSym t s = some p) : p.length ≤ t.size := by
  induction t generalizing p with
  | leaf id =>
    simp only [encodeSym] at h
    by_cases hid : id = s
    · rw [if_pos hid] at h
      obtain rfl : ([] : List Bool) = p := by simpa using h
      simp [HTree.size]
    · rw [if_neg hid] at h
      exact absurd h (by simp)
  | node l r ihl ihr =>
    simp only [encodeSym] at h
    cases hl : encodeSym l s with
    | some q =>
      rw [hl] at h
      obtain rfl : false :: q = p := by simpa using h
      have := ihl q hl
      simp only [HTree.size, List.length_cons]
      omega
    | none =>
      rw [hl] at h
      cases hr : encodeSym r s with
      | some q =>
        rw [hr] at h
        obtain rfl : true :: q = p := by simpa using h
        have := ihr q hr
        simp only [HTree.size, List.length_cons]
        omega
      | none =>
        rw [hr] at h
        exact absurd h (by simp)

theorem encodeAll_isSome (t : HTree) (ids : List Nat)
    (h : ∀ id ∈ ids, (encodeSym t id).isSome) : (encodeAll t ids).isSome := by
  induction ids with
  | nil => simp [encodeAll]
  | cons id rest ih =>
    obtain ⟨p, hp⟩ := Option.isSome_iff_exists.mp (h id (List.mem_cons_self id rest))
    obtain ⟨ps, hps⟩ := Option.isSome_iff_exists.mp
      (ih fun j hj => h j (List.mem_cons_of_mem id hj))
    simp [encodeAll, hp, hps]

theorem encodeAll_length (t : HTree) (ids : List Nat) (bits : List Bool)
    (h : encodeAll t ids = some bits) : bits.length ≤ ids.length * t.size := by
  induction ids generalizing bits with
  | nil =>
    obtain rfl : ([] : List Bool) = bits := by simpa [encodeAll] using h
    simp
  | cons id rest ih =>
    simp only [encodeAll, Option.bind_eq_bind, Option.bind_eq_some] at h
    obtain ⟨p, hp, ps, hps, hbits⟩ := h
    obtain rfl : p ++ ps = bits := by simpa using hbits
    have h1 := encodeSym_length_le t id p hp
    have h2 := ih ps hps
    simp only [List.length_append, List.length_cons]
    calc p.length + ps.length ≤ t.size + rest.length * t.size := by omega
    _ = (rest.length + 1) * t.size := by ring

theorem decodeN_encodeAll (t : HTree) (ids : List Nat) (bits : List Bool)
    (h : encodeAll t ids = some bits) (ext : List Bool) :
    decodeN ids.length t (bits ++ ext) = some (ids, ext) := by
  induction ids generalizing bits with
  | nil =>
    obtain rfl : ([] : List Bool) = bits := by simpa [encodeAll] using h
    simp [decodeN]
  | cons id rest ih =>
    simp only [encodeAll, Option.bind_eq_bind, Option.bind_eq_some] at h
    obtain ⟨p, hp, ps, hps, hbits⟩ := h
    obtain rfl : p ++ ps = bits := by simpa using hbits
    have hone := decodeOne_encodeSym t id p hp (ps ++ ext)
    simp only [List.length_cons, decodeN, Option.bind_eq_bind]
    rw [List.append_assoc, hone]
    simp [ih ps hps]

/-- Total node count of a work list. -/
def hTotalSize (l : List (HTree × Nat)) : Nat := (l.map fun x => x.1.size).sum

theorem hTotalSize_hInsert (t : HTree × Nat) (l : List (HTree × Nat)) :
    hTotalSize (hInsert t l) = t.1.size + hTotalSize l := by
  induction l with
  | nil => simp [hInsert, hTotalSize]
  | cons y ys ih =>
    by_cases h : y.2 ≤ t.2
    · simp only [hInsert, if_pos h, hTotalSize, List.map_cons, List.sum_cons]
      simp only [hTotalSize] at ih
      omega
    · simp only [hInsert, if_neg h, hTotalSize, List.map_cons, List.sum_cons]

theorem hBuildLoop_isSome (n : Nat) :
    ∀ l : List (HTree × Nat), l.length ≤ n → l ≠ [] → (hBuildLoop l).isSome := by
  induction n with
  | zero =>
    intro l hl hne
    cases l with
    | nil => exact absurd rfl hne
    | cons a tl => simp at hl
  | succ n ih =>
    intro l hl hne
    cases l with
    | nil => exact absurd rfl hne
    | cons a tl =>
      cases tl with
      | nil => simp [hBuildLoop]
      | cons b rest =>
        rw [hBuildLoop]
        apply ih
        · rw [hInsert_length]
          simp only [List.length_cons] at hl
          omega
        · intro hcon
          have := congrArg List.length hcon
          rw [hInsert_length] at this
          simp at this

theorem hBuildLoop_leaves (n : Nat) :
    ∀ (l : List (HTree × Nat)) (t : HTree), l.length ≤ n → hBuildLoop l = some t →
      ∀ s, (∃ x ∈ l, s ∈ x.1.leaves) → s ∈ t.leaves := by
  induction n with
  | zero =>
    intro l t hl ht s hs
    cases l with
    | nil => simp [hBuildLoop] at ht
    | cons a tl => simp at hl
  | succ n ih =>
    intro l t hl ht s hs
    cases l with
    | nil => simp [hBuildLoop] at ht
    | cons a tl =>
      cases tl with
      | nil =>
        simp only [hBuildLoop, Option.some.injEq] at ht
        obtain ⟨x, hx, hsx⟩ := hs
        simp only [List.mem_singleton] at hx
        subst hx
        rw [← ht]
        exact hsx
      | cons b rest =>
        rw [hBuildLoop] at ht
        refine ih _ t ?_ ht s ?_
        · rw [hInsert_length]
          simp only [List.length_cons] at hl
          omega
        · obtain ⟨x, hx, hsx⟩ := hs
          simp only [List.mem_cons] at hx
          rcases hx with rfl | rfl | hx
          · exact ⟨(HTree.node x.1 b.1, x.2 + b.2), (hInsert_mem _ _ _).mpr (Or.inl rfl),
              by simp [HTree.leaves, hsx]⟩
          · exact ⟨(HTree.node a.1 x.1, a.2 + x.2), (hInsert_mem _ _ _).mpr (Or.inl rfl),
              by simp [HTree.leaves, hsx]⟩
          · exact ⟨x, (hInsert_mem _ _ _).mpr (Or.inr hx), hsx⟩

theorem hBuildLoop_size (n : Nat) :
    ∀ (l : List (HTree × Nat)) (t : HTree), l.length ≤ n → hBuildLoop l = some t →
      t.size + 1 = hTotalSize l + l.length := by
  induction n with
  | zero =>
    intro l t hl ht
    cases l with
    | nil => simp [hBuildLoop] at ht
    | cons a tl => simp at hl
  | succ n ih =>
    intro l t hl ht
    cases l with
    | nil => simp [hBuildLoop] at ht
    | cons a tl =>
      cases tl with
      | nil =>
        simp only [hBuildLoop, Option.some.injEq] at ht
        subst ht
        simp [hTotalSize]
      | cons b rest =>
        rw [hBuildLoop] at ht
        have hrec := ih _ t (by rw [hInsert_length]; simp only [List.length_cons] at hl; omega) ht
        rw [hInsert_length, hTotalSize_hInsert] at hrec
        simp only [hTotalSize, List.map_cons, List.sum_cons, List.length_cons] at hrec ⊢
        simp only [HTree.size] at hrec
        omega

/-
  Byte-level serialization.  Modelled from the spec (§4.5): the repository's
  `reinterpreter` module is not in the sources; the spec fixes the layout as
  little-endian binary with a one-byte discriminant for `FillType`, a `u16`
  voxel id, a length-prefixed `(id, u64 count)` frequency table and a
  length-prefixed bitstream.  Bytes are modelled as `Nat` values `< 256`.
-/

/-- Little-endian `u16`. -/
def u16Bytes (n : Nat) : List Nat := [n % 256, n / 256 % 256]

/-- Little-endian `u64`. -/
def u64Bytes (n : Nat) : List Nat :=
  [n % 256, n / 256 % 256, n / 65536 % 256, n / 16777216 % 256,
   n / 4294967296 % 256, n / 1099511627776 % 256,
   n / 281474976710656 % 256, n / 72057594037927936 % 256]

/-- `ByteReader::read::<u16>`. -/
def readU16 : List Nat → Option (Nat × List Nat)
  | b0 :: b1 :: rest => some (b0 + 256 * b1, rest)
  | _ => none

/-- `ByteReader::read::<u64>`. -/
def readU64 : List Nat → Option (Nat × List Nat)
  | b0 :: b1 :: b2 :: b3 :: b4 :: b5 :: b6 :: b7 :: rest =>
    some (b0 + 256 * b1 + 65536 * b2 + 16777216 * b3 + 4294967296 * b4 +
      1099511627776 * b5 + 281474976710656 * b6 + 72057594037927936 * b7, rest)
  | _ => none

theorem readU16_u16Bytes (n : Nat) (h : n < 65536) (rest : List Nat) :
    readU16 (u16Bytes n ++ rest) = some (n, rest) := by
  simp only [u16Bytes, List.cons_append, List.nil_append, readU16,
    Option.some.injEq, Prod.mk.injEq]
  refine ⟨by omega, trivial⟩

theorem readU64_u64Bytes (n : Nat) (h : n < 2 ^ 64) (rest : List Nat) :
    readU64 (u64Bytes n ++ rest) = some (n, rest) := by
  simp only [u64Bytes, List.cons_append, List.nil_append, readU64,
    Option.some.injEq, Prod.mk.injEq]
  refine ⟨by omega, trivial⟩

/-- Modelled from the spec: the static voxel-data table (`voxel_data.rs` is
not in the sources); it holds at least the air (id 0), stone and log records. -/
def VOXEL_DATA_LEN : Nat := 3

/-- `voxel::is_id_valid` (src/app/utils/terrain/voxel/mod.rs):
`(0..VOXEL_DATA.len()).contains(&id)`. -/
def voxel.is_id_valid (id : Nat) : Bool := decide (id < VOXEL_DATA_LEN)

/-- `FillType` (modelled from the spec §3): `Default` (explicit id array) or
`AllSame(id)`. -/
inductive FillType where
  | Default
  | AllSame (id : Nat)
deriving DecidableEq

/-- Modelled from the spec: serialized `FillType` is one discriminant byte
(declaration order) followed by the `u16` id for `AllSame`. -/
def FillType.as_bytes : FillType → List Nat
  | .Default => [0]
  | .AllSame id => 1 :: u16Bytes id

/-- `ByteReader::read::<FillType>`. -/
def readFillType : List Nat → Option (FillType × List Nat)
  | [] => none
  | b :: rest =>
    if b = 0 then some (.Default, rest)
    else if b = 1 then (readU16 rest).map fun kv => (.AllSame kv.1, kv.2)
    else none

/-- Serialized frequency table: `u64` entry count, then `(u16 id, u64 count)`
entries.  The nondeterministic `HashMap` iteration order is canonicalized by
sorting on the id before serializing and before building the code tree. -/
def freqsBytes (freqs : List (Nat × Nat)) : List Nat :=
  u64Bytes freqs.length ++ freqs.flatMap fun kv => u16Bytes kv.1 ++ u64Bytes kv.2

def readFreqEntries : Nat → List Nat → Option (List (Nat × Nat) × List Nat)
  | 0, bytes => some ([], bytes)
  | n + 1, bytes => do
    let (k, r1) ← readU16 bytes
    let (v, r2) ← readU64 r1
    let (kvs, r3) ← readFreqEntries n r2
    some ((k, v) :: kvs, r3)

/-- `ByteReader::read::<HashMap<Id, usize>>`. -/
def readFreqMap (bytes : List Nat) : Option (List (Nat × Nat) × List Nat) := do
  let (n, r) ← readU64 bytes
  readFreqEntries n r

theorem readFreqEntries_roundtrip (freqs : List (Nat × Nat))
    (h : ∀ kv ∈ freqs, kv.1 < 65536 ∧ kv.2 < 2 ^ 64) (rest : List Nat) :
    readFreqEntries freqs.length
      ((freqs.flatMap fun kv => u16Bytes kv.1 ++ u64Bytes kv.2) ++ rest) =
      some (freqs, rest) := by
  induction freqs with
  | nil => simp [readFreqEntries]
  | cons kv kvs ih =>
    obtain ⟨hk, hv⟩ := h kv (List.mem_cons_self kv kvs)
    simp only [List.flatMap_cons, List.length_cons, List.append_assoc, readFreqEntries,
      Option.bind_eq_bind]
    rw [readU16_u16Bytes kv.1 hk, Option.some_bind,
      readU64_u64Bytes kv.2 hv, Option.some_bind,
      ih fun x hx => h x (List.mem_cons_of_mem kv hx)]
    rfl

theorem readFreqMap_roundtrip (freqs : List (Nat × Nat))
    (h : ∀ kv ∈ freqs, kv.1 < 65536 ∧ kv.2 < 2 ^ 64) (hn : freqs.length < 2 ^ 64)
    (rest : List Nat) :
    readFreqMap (freqsBytes freqs ++ rest) = some (freqs, rest) := by
  rw [freqsBytes, List.append_assoc, readFreqMap]
  rw [readU64_u64Bytes freqs.length hn, Option.bind_eq_bind, Option.some_bind]
  exact readFreqEntries_roundtrip freqs h rest

/-- Serialized bitstream: `u64` bit count, then one byte per bit. -/
def bitsBytes (bits : List Bool) : List Nat :=
  u64Bytes bits.length ++ bits.map fun b => if b then 1 else 0

def readBitList : Nat → List Nat → Option (List Bool × List Nat)
  | 0, bytes => some ([], bytes)
  | _ + 1, [] => none
  | n + 1, b :: bytes =>
    (readBitList n bytes).map fun br => ((decide (b = 1)) :: br.1, br.2)

/-- `ByteReader::read::<BitVec>`. -/
def readBitsBlock (bytes : List Nat) : Option (List Bool × List Nat) := do
  let (n, r) ← readU64 bytes
  readBitList n r

theorem readBitList_roundtrip (bits : List Bool) (rest : List Nat) :
    readBitList bits.length ((bits.map fun b => if b then 1 else 0) ++ rest) =
      some (bits, rest) := by
  induction bits with
  | nil => simp [readBitList]
  | cons b bs ih =>
    cases b <;> simp [readBitList, ih]

theorem readBitsBlock_roundtrip (bits : List Bool) (hn : bits.length < 2 ^ 64)
    (rest : List Nat) :
    readBitsBlock (bitsBytes bits ++ rest) = some (bits, rest) := by
  rw [bitsBytes, List.append_assoc, readBitsBlock]
  rw [readU64_u64Bytes bits.length hn, Option.bind_eq_bind, Option.some_bind]
  exact readBitList_roundtrip bits rest

/-- Keys of the association-list frequency map. -/
def freqKeys (m : List (Nat × Nat)) : List Nat := m.map Prod.fst

theorem freqKeys_bump_mem (m : List (Nat × Nat)) (id j : Nat) :
    j ∈ freqKeys (freqBump m id) ↔ j ∈ freqKeys m ∨ j = id := by
  induction m with
  | nil => simp [freqBump, freqKeys]
  | cons kv rest ih =>
    obtain ⟨k, v⟩ := kv
    by_cases h : k = id
    · subst h
      have hb : freqBump ((k, v) :: rest) k = (k, v + 1) :: rest := by
        simp [freqBump]
      rw [hb]
      simp only [freqKeys, List.map_cons, List.mem_cons]
      constructor
      · tauto
      · rintro ((h | h) | rfl) <;> tauto
    · simp only [freqBump, if_neg h, freqKeys, List.map_cons, List.mem_cons]
      simp only [freqKeys] at ih
      rw [ih]
      tauto

theorem freqKeys_bump_nodup (m : List (Nat × Nat)) (id : Nat)
    (h : (freqKeys m).Nodup) : (freqKeys (freqBump m id)).Nodup := by
  induction m with
  | nil => simp [freqBump, freqKeys]
  | cons kv rest ih =>
    obtain ⟨k, v⟩ := kv
    simp only [freqKeys, List.map_cons, List.nodup_cons] at h
    obtain ⟨hk, hrest⟩ := h
    by_cases hkid : k = id
    · subst hkid
      have hb : freqBump ((k, v) :: rest) k = (k, v + 1) :: rest := by
        simp [freqBump]
      rw [hb]
      simp only [freqKeys, List.map_cons, List.nodup_cons]
      exact ⟨hk, hrest⟩
    · simp only [freqBump, if_neg hkid, freqKeys, List.map_cons, List.nodup_cons]
      refine ⟨?_, ih hrest⟩
      intro hmem
      rcases (freqKeys_bump_mem rest id k).mp hmem with hmem | hmem
      · exact hk hmem
      · exact hkid hmem

theorem count_voxel_frequencies_keys_nodup (ids : List Nat) :
    (freqKeys (ChunkArray.count_voxel_frequencies ids)).Nodup := by
  have main : ∀ (l : List Nat) (m : List (Nat × Nat)), (freqKeys m).Nodup →
      (freqKeys (l.foldl freqBump m)).Nodup := by
    intro l
    induction l with
    | nil => intro m hm; exact hm
    | cons id rest ih =>
      intro m hm
      exact ih (freqBump m id) (freqKeys_bump_nodup m id hm)
  exact main ids [] (by simp [freqKeys])

theorem freqFind_of_mem (m : List (Nat × Nat)) (hn : (freqKeys m).Nodup)
    (kv : Nat × Nat) (h : kv ∈ m) : freqFind m kv.1 = some kv.2 := by
  induction m with
  | nil => simp at h
  | cons x rest ih =>
    obtain ⟨k, v⟩ := x
    simp only [freqKeys, List.map_cons, List.nodup_cons] at hn
    obtain ⟨hk, hrest⟩ := hn
    rcases List.mem_cons.mp h with rfl | h
    · simp [freqFind]
    · have hne : k ≠ kv.1 := by
        intro hcon
        exact hk (hcon ▸ List.mem_map_of_mem Prod.fst h)
      simp only [freqFind, if_neg hne]
      exact ih hrest h

namespace Chunk

/-- Modelled from the spec: `Chunk::SIZE` is the compile-time side `S = 32`. -/
def SIZE : Nat := 32

/-- Modelled from the spec: `Chunk::VOLUME = S^3`. -/
def VOLUME : Nat := SIZE * SIZE * SIZE

end Chunk

/-- Canonical (id-sorted) rendering of the frequency map handed to the
Huffman code builder and to the serializer. -/
def freqsSorted (freqs : List (Nat × Nat)) : List (Nat × Nat) :=
  freqs.mergeSort fun a b => decide (a.1 ≤ b.1)

/-- `ChunkArray::chunk_as_bytes`: an `AllSame` chunk serializes as its fill
type alone; a `Default` chunk asserts `voxel_ids.len() == Chunk::VOLUME`
(`none` models the panic), then writes the fill-type byte, the frequency
table of `count_voxel_frequencies` and the Huffman bitstream of the ids
(`none` when a symbol is missing from the book). -/
def ChunkArray.chunk_as_bytes (fill_type : FillType) (voxel_ids : List Nat) :
    Option (List Nat) :=
  match fill_type with
  | .AllSame id => some (FillType.as_bytes (.AllSame id))
  | .Default =>
    if voxel_ids.length = Chunk.VOLUME then
      let freqs := freqsSorted (ChunkArray.count_voxel_frequencies voxel_ids)
      match buildTree freqs with
      | none => none
      | some tree =>
        (encodeAll tree voxel_ids).map fun bits =>
          FillType.as_bytes .Default ++ freqsBytes freqs ++ bitsBytes bits
    else none

/-- `ChunkArray::array_filltype_from_bytes`: read the fill type; for
`AllSame` return an empty id array; for `Default` read the frequency table
and the bitstream, rebuild the code tree from the frequencies, decode
`Chunk::VOLUME` ids and check them (`none` models the `expect`/`assert`
panics). -/
def ChunkArray.array_filltype_from_bytes (bytes : List Nat) :
    Option (List Nat × FillType) := do
  let (fill_type, r1) ← readFillType bytes
  match fill_type with
  | .AllSame id => some ([], FillType.AllSame id)
  | .Default => do
    let (freqs, r2) ← readFreqMap r1
    let (bits, _) ← readBitsBlock r2
    let tree ← buildTree freqs
    let (voxel_ids, _) ← decodeN Chunk.VOLUME tree bits
    if voxel_ids.all voxel.is_id_valid ∧ voxel_ids.length = Chunk.VOLUME then
      some (voxel_ids, FillType.Default)
    else none

theorem freqFind_mem (m : List (Nat × Nat)) (k v : Nat)
    (h : freqFind m k = some v) : (k, v) ∈ m := by
  induction m with
  | nil => simp [freqFind] at h
  | cons kv rest ih =>
    obtain ⟨k0, v0⟩ := kv
    by_cases hk : k0 = k
    · subst hk
      have h2 : some v0 = some v := by simpa [freqFind] using h
      obtain rfl := Option.some.inj h2
      exact List.mem_cons_self _ _
    · simp only [freqFind, if_neg hk] at h
      exact List.mem_cons_of_mem _ (ih h)

theorem cvf_find_eq_count (ids : List Nat) (k v : Nat)
    (h : freqFind (ChunkArray.count_voxel_frequencies ids) k = some v) :
    k ∈ ids ∧ v = ids.count k := by
  have hru : ChunkArray.count_voxel_frequencies ids = ids.foldl freqBump [] := rfl
  have hs : (freqFind (ids.foldl freqBump []) k).isSome := by
    rw [← hru, h]; rfl
  rw [freqFind_foldl_isSome] at hs
  have hmem : k ∈ ids := by
    rcases hs with hs | hs
    · simp [freqFind] at hs
    · exact hs
  have hg := freqFind_foldl_getD ids [] k
  rw [← hru, h] at hg
  simp only [Option.getD_some, freqFind, Option.getD_none] at hg
  exact ⟨hmem, by omega⟩

theorem cvf_find_of_mem (ids : List Nat) (k : Nat) (h : k ∈ ids) :
    ∃ v, freqFind (ChunkArray.count_voxel_frequencies ids) k = some v := by
  have hru : ChunkArray.count_voxel_frequencies ids = ids.foldl freqBump [] := rfl
  have hs : (freqFind (ids.foldl freqBump []) k).isSome := by
    rw [freqFind_foldl_isSome]
    exact Or.inr h
  rw [← hru] at hs
  exact Option.isSome_iff_exists.mp hs

theorem freqBump_length (m : List (Nat × Nat)) (id : Nat) :
    (freqBump m id).length ≤ m.length + 1 := by
  induction m with
  | nil => simp [freqBump]
  | cons kv rest ih =>
    obtain ⟨k, v⟩ := kv
    by_cases h : k = id
    · simp [freqBump, h]
    · simp only [freqBump, if_neg h, List.length_cons]
      omega

theorem cvf_length_le (ids : List Nat) :
    (ChunkArray.count_voxel_frequencies ids).length ≤ ids.length := by
  have main : ∀ (l : List Nat) (m : List (Nat × Nat)),
      (l.foldl freqBump m).length ≤ m.length + l.length := by
    intro l
    induction l with
    | nil => intro m; simp
    | cons id rest ih =>
      intro m
      rw [List.foldl_cons]
      calc (rest.foldl freqBump (freqBump m id)).length
          ≤ (freqBump m id).length + rest.length := ih (freqBump m id)
        _ ≤ m.length + 1 + rest.length := by
            have := freqBump_length m id
            omega
        _ = m.length + (id :: rest).length := by
            rw [List.length_cons]
            omega
  simpa using main ids []

theorem hTotalSize_leafMap (l : List (Nat × Nat)) :
    hTotalSize (l.map fun kv => (HTree.leaf kv.1, kv.2)) = l.length := by
  induction l with
  | nil => simp [hTotalSize]
  | cons kv rest ih =>
    simp only [List.map_cons, hTotalSize, List.sum_cons, HTree.size,
      List.length_cons] at ih ⊢
    omega

/-- C1: codec round trip.  For every well-formed chunk — `AllSame(id)` with a
`u16` id and empty id array, or `Default` with exactly `V = S^3` valid voxel
ids — decoding the blob written by `chunk_as_bytes` with
`array_filltype_from_bytes` yields exactly the chunk's id array and fill
type; and an `AllSame` chunk serializes to a 3-byte blob, a constant
independent of `V`. -/
theorem C1_codec_round_trip (fill_type : FillType) (voxel_ids : List Nat)
    (hwf : (∃ id, fill_type = FillType.AllSame id ∧ id < 65536 ∧ voxel_ids = []) ∨
      (fill_type = FillType.Default ∧ voxel_ids.length = Chunk.VOLUME ∧
        ∀ id ∈ voxel_ids, voxel.is_id_valid id = true)) :
    ∃ bytes, ChunkArray.chunk_as_bytes fill_type voxel_ids = some bytes ∧
      ChunkArray.array_filltype_from_bytes bytes = some (voxel_ids, fill_type) ∧
      (∀ id0, fill_type = FillType.AllSame id0 → bytes.length = 3) := by
  rcases hwf with ⟨id, rfl, hid, rfl⟩ | ⟨rfl, hlen, hvalid⟩
  · refine ⟨1 :: u16Bytes id, rfl, ?_, fun id0 _ => by simp [u16Bytes]⟩
    have h16 : readU16 (u16Bytes id) = some (id, []) := by
      have h := readU16_u16Bytes id hid []
      rwa [List.append_nil] at h
    rw [ChunkArray.array_filltype_from_bytes]
    simp [readFillType, h16]
  · have hVOL : Chunk.VOLUME = 32768 := by norm_num [Chunk.VOLUME, Chunk.SIZE]
    have hkeysnodup0 := count_voxel_frequencies_keys_nodup voxel_ids
    have hperm : (freqsSorted (ChunkArray.count_voxel_frequencies voxel_ids)).Perm
        (ChunkArray.count_voxel_frequencies voxel_ids) :=
      List.mergeSort_perm _ _
    have hbound : ∀ kv ∈ freqsSorted (ChunkArray.count_voxel_frequencies voxel_ids),
        kv.1 < 65536 ∧ kv.2 < 2 ^ 64 := by
      intro kv hkv
      have hkv2 : kv ∈ ChunkArray.count_voxel_frequencies voxel_ids :=
        hperm.mem_iff.mp hkv
      have hfind := freqFind_of_mem _ hkeysnodup0 kv hkv2
      obtain ⟨hmem, hcount⟩ := cvf_find_eq_count voxel_ids kv.1 kv.2 hfind
      have hv := hvalid kv.1 hmem
      simp only [voxel.is_id_valid, VOXEL_DATA_LEN, decide_eq_true_eq] at hv
      refine ⟨by omega, ?_⟩
      have hle : voxel_ids.count kv.1 ≤ voxel_ids.length := List.count_le_length kv.1 voxel_ids
      rw [hlen, hVOL] at hle
      omega
    have hflen : (freqsSorted (ChunkArray.count_voxel_frequencies voxel_ids)).length ≤ 32768 := by
      have h1 := hperm.length_eq
      have h2 := cvf_length_le voxel_ids
      rw [hlen, hVOL] at h2
      omega
    have hlen64 : (freqsSorted (ChunkArray.count_voxel_frequencies voxel_ids)).length < 2 ^ 64 := by
      omega
    have hne : voxel_ids ≠ [] := by
      intro hcon
      rw [hcon] at hlen
      rw [hVOL] at hlen
      simp at hlen
    have hfreqs_ne : freqsSorted (ChunkArray.count_voxel_frequencies voxel_ids) ≠ [] := by
      obtain ⟨id0, hid0⟩ := List.exists_mem_of_ne_nil voxel_ids hne
      obtain ⟨v, hv⟩ := cvf_find_of_mem voxel_ids id0 hid0
      exact List.ne_nil_of_mem (hperm.mem_iff.mpr (freqFind_mem _ id0 v hv))
    have htree0 : ∃ tree,
        buildTree (freqsSorted (ChunkArray.count_voxel_frequencies voxel_ids)) = some tree := by
      rw [buildTree]
      apply Option.isSome_iff_exists.mp
      apply hBuildLoop_isSome
        ((freqsSorted (ChunkArray.count_voxel_frequencies voxel_ids)).map
          fun kv => (HTree.leaf kv.1, kv.2)).length _ le_rfl
      intro hcon
      exact hfreqs_ne (List.map_eq_nil_iff.mp hcon)
    obtain ⟨tree, htree⟩ := htree0
    have hleaf : ∀ id0 ∈ voxel_ids, id0 ∈ tree.leaves := by
      intro id0 hid0
      obtain ⟨v, hv⟩ := cvf_find_of_mem voxel_ids id0 hid0
      have hm : (id0, v) ∈ freqsSorted (ChunkArray.count_voxel_frequencies voxel_ids) :=
        hperm.mem_iff.mpr (freqFind_mem _ id0 v hv)
      refine hBuildLoop_leaves _ _ tree le_rfl htree id0 ?_
      exact ⟨(HTree.leaf id0, v),
        List.mem_map_of_mem (fun kv => (HTree.leaf kv.1, kv.2)) hm,
        by simp [HTree.leaves]⟩
    have hencSome : (encodeAll tree voxel_ids).isSome :=
      encodeAll_isSome tree voxel_ids fun id0 h0 =>
        encodeSym_isSome_of_mem_leaves tree id0 (hleaf id0 h0)
    obtain ⟨bits, hbits⟩ := Option.isSome_iff_exists.mp hencSome
    have hsize : tree.size + 1 =
        (freqsSorted (ChunkArray.count_voxel_frequencies voxel_ids)).length +
        (freqsSorted (ChunkArray.count_voxel_frequencies voxel_ids)).length := by
      have h := hBuildLoop_size _ _ tree le_rfl htree
      rwa [hTotalSize_leafMap, List.length_map] at h
    have hbitslen : bits.length < 2 ^ 64 := by
      have h1 := encodeAll_length tree voxel_ids bits hbits
      rw [hlen, hVOL] at h1
      omega
    have henc : ChunkArray.chunk_as_bytes FillType.Default voxel_ids =
        some (FillType.as_bytes .Default ++
          freqsBytes (freqsSorted (ChunkArray.count_voxel_frequencies voxel_ids)) ++
          bitsBytes bits) := by
      rw [ChunkArray.chunk_as_bytes, if_pos hlen]
      simp only [htree, hbits]
      rfl
    have hdec : ChunkArray.array_filltype_from_bytes
        (FillType.as_bytes .Default ++
          freqsBytes (freqsSorted (ChunkArray.count_voxel_frequencies voxel_ids)) ++
          bitsBytes bits) = some (voxel_ids, FillType.Default) := by
      have hshape : FillType.as_bytes .Default ++
          freqsBytes (freqsSorted (ChunkArray.count_voxel_frequencies voxel_ids)) ++
          bitsBytes bits =
          0 :: (freqsBytes (freqsSorted (ChunkArray.count_voxel_frequencies voxel_ids)) ++
            bitsBytes bits) := by
        simp [FillType.as_bytes]
      rw [hshape, ChunkArray.array_filltype_from_bytes]
      have hft : readFillType
          (0 :: (freqsBytes (freqsSorted (ChunkArray.count_voxel_frequencies voxel_ids)) ++
            bitsBytes bits)) =
          some (FillType.Default,
            freqsBytes (freqsSorted (ChunkArray.count_voxel_frequencies voxel_ids)) ++
            bitsBytes bits) := by
        simp [readFillType]
      rw [hft]
      have hfm := readFreqMap_roundtrip _ hbound hlen64 (bitsBytes bits)
      have hbb := readBitsBlock_roundtrip bits hbitslen []
      rw [List.append_nil] at hbb
      have hdecN : decodeN Chunk.VOLUME tree bits = some (voxel_ids, []) := by
        have h := decodeN_encodeAll tree voxel_ids bits hbits []
        rw [List.append_nil] at h
        rw [← hlen]
        exact h
      simp only [Option.bind_eq_bind, Option.some_bind, hfm, hbb, htree, hdecN]
      rw [if_pos ⟨List.all_eq_true.mpr hvalid, hlen⟩]
    refine ⟨_, henc, hdec, fun id0 hcon => by cases hcon⟩

/-- Witness for C1 at the `AllSame(1)` (uniform stone) chunk. -/
theorem C1_codec_round_trip_witness :
    ∃ bytes, ChunkArray.chunk_as_bytes (FillType.AllSame 1) [] = some bytes ∧
      ChunkArray.array_filltype_from_bytes bytes = some ([], FillType.AllSame 1) ∧
      (∀ id0, FillType.AllSame 1 = FillType.AllSame id0 → bytes.length = 3) :=
  C1_codec_round_trip (FillType.AllSame 1) []
    (Or.inl ⟨1, rfl, by decide, rfl⟩)

/-
  The `Chunk` data model.  `chunk/mod.rs` is not in the sources, so the parts
  of `Chunk` that `chunk_array.rs` calls are modelled from the spec (§3,
  §4.1): fill type with dense id buffer, a mesh cache keyed by LOD
  (abstracted to the list of cached LODs), an active LOD and a generated
  flag.
-/

/-- Modelled from the spec: `Chunk::SIZES = (S, S, S)`. -/
def Chunk.SIZES : USize3 := ⟨Chunk.SIZE, Chunk.SIZE, Chunk.SIZE⟩

/-- Modelled from the spec (§3): chunk state as used by `chunk_array.rs`. -/
structure Chunk where
  pos : Int3
  fill_type : FillType
  voxel_ids : List Nat
  mesh_lods : List Nat
  active_lod : Option Nat
  generated : Bool
deriving DecidableEq

/-- `Voxel` (src/app/utils/terrain/voxel/mod.rs), with the static-data
reference reduced to its id. -/
structure Voxel where
  id : Nat
  pos : Int3
deriving DecidableEq

/-- `ChunkOption` result of `Chunk::get_voxel_global`. -/
inductive ChunkOption (α : Type) where
  | Item (item : α)
  | OutsideChunk
deriving DecidableEq

/-- `EditError` (modelled from the spec §7). -/
inductive EditError where
  | InvalidId (id : Nat)
  | PosIdConversion (pos : Int3)
deriving DecidableEq

/-- Modelled from the spec (§4.1): `Chunk::local_pos(p)` is the chunk position
containing the global voxel position `p`, `floor_div(p, S)` componentwise. -/
def Chunk.local_pos (pos : Int3) : Int3 :=
  ⟨pos.x.fdiv (Chunk.SIZE : Int), pos.y.fdiv (Chunk.SIZE : Int), pos.z.fdiv (Chunk.SIZE : Int)⟩

/-- Modelled from the spec (§4.1): `Chunk::global_pos(chunk_pos)` is the
global position of the chunk's minimal voxel, `chunk_pos * S`. -/
def Chunk.global_pos (chunk_pos : Int3) : Int3 :=
  chunk_pos.mulScalar (Chunk.SIZE : Int)

/-- Modelled from the spec (§4.1): local coordinates `p - chunk_pos * S`. -/
def Chunk.global_to_local_pos (chunk_pos global : Int3) : Int3 :=
  global - Chunk.global_pos chunk_pos

/-- Modelled from the spec (§4.1): linear index `x + S·y + S²·z` of a global
position inside the chunk at `chunk_pos`. -/
def Chunk.voxel_local_idx (chunk_pos global : Int3) : Nat :=
  let l := Chunk.global_to_local_pos chunk_pos global
  (l.x + (Chunk.SIZE : Int) * l.y + (Chunk.SIZE : Int) * (Chunk.SIZE : Int) * l.z).toNat

/-- Logical id of the voxel at a chunk-local linear index. -/
def Chunk.get_id (c : Chunk) (lidx : Nat) : Nat :=
  match c.fill_type with
  | .AllSame id => id
  | .Default => c.voxel_ids.getD lidx 0

/-- Modelled from the spec (§4.1): `Chunk::new` yields an empty (uniform air)
ungenerated chunk with no meshes. -/
def Chunk.new (pos : Int3) : Chunk :=
  ⟨pos, .AllSame 0, [], [], none, false⟩

/-- `Chunk::drop_all_meshes`: clear the mesh cache and the active LOD. -/
def Chunk.drop_all_meshes (c : Chunk) : Chunk :=
  { c with mesh_lods := [], active_lod := none }

def Chunk.is_generated (c : Chunk) : Bool := c.generated

/-- Modelled from the spec (§4.1): `Chunk::get_voxel_global` returns the
voxel when `p` lies in this chunk and signals `OutsideChunk` otherwise. -/
def Chunk.get_voxel_global (c : Chunk) (global : Int3) : ChunkOption Voxel :=
  if Chunk.local_pos global = c.pos then
    .Item ⟨c.get_id (Chunk.voxel_local_idx c.pos global), global⟩
  else .OutsideChunk

/-- Modelled from the spec (§4.1 and §9 "uniform-fill promotion"):
`Chunk::set_voxel` validates the id, requires the position to lie in this
chunk, treats a same-id write as a no-op, and otherwise promotes
`AllSame -> Default`, writes the id and drops all meshes. -/
def Chunk.set_voxel (c : Chunk) (pos : Int3) (new_id : Nat) :
    Except EditError (Nat × Chunk) :=
  if ¬ voxel.is_id_valid new_id then .error (.InvalidId new_id)
  else if Chunk.local_pos pos ≠ c.pos then .error (.PosIdConversion pos)
  else
    let lidx := Chunk.voxel_local_idx c.pos pos
    let old_id := c.get_id lidx
    if old_id = new_id then .ok (old_id, c)
    else
      let ids := match c.fill_type with
        | .AllSame id => List.replicate Chunk.VOLUME id
        | .Default => c.voxel_ids
      .ok (old_id,
        { c with
          fill_type := .Default
          voxel_ids := ids.set lidx new_id
          mesh_lods := []
          active_lod := none })

/-- Does `p` lie in the inclusive-exclusive box `[lo, hi)`? -/
def Int3.inRange (p lo hi : Int3) : Bool :=
  decide (lo.x ≤ p.x ∧ p.x < hi.x ∧ lo.y ≤ p.y ∧ p.y < hi.y ∧ lo.z ≤ p.z ∧ p.z < hi.z)

/-- Global position of the voxel at a chunk-local linear index (inverse of
`Chunk.voxel_local_idx`). -/
def Chunk.voxel_pos_of_idx (chunk_pos : Int3) (i : Nat) : Int3 :=
  Chunk.global_pos chunk_pos +
    ⟨(i % Chunk.SIZE : Nat), (i / Chunk.SIZE % Chunk.SIZE : Nat),
     (i / (Chunk.SIZE * Chunk.SIZE) % Chunk.SIZE : Nat)⟩

/-- Modelled from the spec (§4.1): `Chunk::fill_voxels` sets every voxel of
the chunk inside `[pos_from, pos_to)` to `new_id`, reports whether anything
changed, and on change materializes the id array and drops all meshes. -/
def Chunk.fill_voxels (c : Chunk) (pos_from pos_to : Int3) (new_id : Nat) :
    Except EditError (Bool × Chunk) :=
  if ¬ voxel.is_id_valid new_id then .error (.InvalidId new_id)
  else
    let touched := fun i => Int3.inRange (Chunk.voxel_pos_of_idx c.pos i) pos_from pos_to
    let changed := (List.range Chunk.VOLUME).any fun i => touched i && c.get_id i ≠ new_id
    if changed then
      let ids := (List.range Chunk.VOLUME).map fun i =>
        if touched i then new_id else c.get_id i
      .ok (true,
        { c with
          fill_type := .Default
          voxel_ids := ids
          mesh_lods := []
          active_lod := none })
    else .ok (false, c)

/-- Componentwise maximum (`Ord::max` per component in the source). -/
def Int3.compMax (a b : Int3) : Int3 := ⟨max a.x b.x, max a.y b.y, max a.z b.z⟩

/-- Componentwise minimum (`Ord::min` per component in the source). -/
def Int3.compMin (a b : Int3) : Int3 := ⟨min a.x b.x, min a.y b.y, min a.z b.z⟩

/-- Integer interval `[a, b)` as a list. -/
def intRange (a b : Int) : List Int := (List.range (b - a).toNat).map fun i => a + i

/-- `SpaceIter::new(start..end)` (modelled from the spec §4.6): integer
positions in lexicographic order, `z` fastest. -/
def SpaceIter.new (start stop : Int3) : List Int3 :=
  (intRange start.x stop.x).flatMap fun x =>
    (intRange start.y stop.y).flatMap fun y =>
      (intRange start.z stop.z).map fun z => Int3.mk x y z

/-- `SpaceIter::adj_iter` (modelled from the spec §4.6): the six face-adjacent
positions in the order `(+X, -X, +Y, -Y, +Z, -Z)`. -/
def SpaceIter.adj_iter (pos : Int3) : List Int3 :=
  [pos + ⟨1, 0, 0⟩, pos - ⟨1, 0, 0⟩, pos + ⟨0, 1, 0⟩,
   pos - ⟨0, 1, 0⟩, pos + ⟨0, 0, 1⟩, pos - ⟨0, 0, 1⟩]

/-- `ChunkArray` state (chunk_array.rs).  The task maps are reduced to their
key lists and the tokio join handles to optional task ids; the mesh/voxel
payloads live in the `Chunk`s. -/
structure ChunkArray where
  chunks : List Chunk
  sizes : USize3
  full_tasks : List Int3
  low_tasks : List (Int3 × Nat)
  voxels_gen_tasks : List Int3
  lod_dist_threashold : Rat
  reading_handle : Option Nat
  saving_handle : Option Nat
deriving DecidableEq

/-- `ChunkArray::get_adj_chunks_idxs`: array indices of the six face
neighbors, `none` for neighbors outside the array. -/
def ChunkArray.get_adj_chunks_idxs (sizes : USize3) (pos : Int3) : List (Option Nat) :=
  (SpaceIter.adj_iter pos).map (ChunkArray.pos_to_idx sizes)

/-- `ChunkArray::set_voxel`: locate the chunk containing `pos` and delegate
to `Chunk::set_voxel`.  Faithful to the source: no neighbor chunk is touched
(the function's own doc comment promises to drop the neighbors' meshes, but
the body does not). -/
def ChunkArray.set_voxel (a : ChunkArray) (pos : Int3) (new_id : Nat) :
    Except EditError (Nat × ChunkArray) :=
  let chunk_pos := Chunk.local_pos pos
  match ChunkArray.pos_to_idx a.sizes chunk_pos with
  | none => .error (.PosIdConversion pos)
  | some chunk_idx =>
    match (a.chunks.getD chunk_idx (Chunk.new Int3.ZERO)).set_voxel pos new_id with
    | .error e => .error e
    | .ok (old_id, chunk2) =>
      .ok (old_id, { a with chunks := a.chunks.set chunk_idx chunk2 })

/-- Result of `ChunkArray::get_voxel` with the two panic sites (out-of-bounds
indexing and the `unreachable!` arm) made explicit. -/
inductive GetVoxelResult where
  | ok (v : Option Voxel)
  | panicked
deriving DecidableEq

/-- `ChunkArray::get_voxel`: `None` when the containing chunk position is
outside the array, otherwise the voxel from the chunk; `panicked` models the
`unreachable!` arm and an out-of-bounds `chunks[idx]`. -/
def ChunkArray.get_voxel (a : ChunkArray) (pos : Int3) : GetVoxelResult :=
  let chunk_pos := Chunk.local_pos pos
  match ChunkArray.pos_to_idx a.sizes chunk_pos with
  | none => .ok none
  | some chunk_idx =>
    match a.chunks.get? chunk_idx with
    | none => .panicked
    | some chunk =>
      match chunk.get_voxel_global pos with
      | .Item v => .ok (some v)
      | .OutsideChunk => .panicked

/-- Drop the meshes of every present index (the adjacent-invalidation loop of
`ChunkArray::fill_voxels`). -/
def ChunkArray.drop_meshes_at (chunks : List Chunk) (idxs : List (Option Nat)) :
    List Chunk :=
  idxs.foldl
    (fun cs oi =>
      match oi with
      | some i => cs.set i ((cs.getD i (Chunk.new Int3.ZERO)).drop_all_meshes)
      | none => cs)
    chunks

/-- `ChunkArray::fill_voxels`: bounds-check the two corner chunks, then for
every covered chunk clamp the voxel box to the chunk, delegate to
`Chunk::fill_voxels` and, when that chunk changed, drop the meshes of its six
loaded neighbors.  The source's in-loop `expect` cannot fire (every iterated
position lies in the box between the two checked corners), so the index
lookup is read with a default. -/
def ChunkArray.fill_voxels (a : ChunkArray) (pos_from pos_to : Int3) (new_id : Nat) :
    Except EditError (Bool × ChunkArray) :=
  let chunk_pos_from := Chunk.local_pos pos_from
  let chunk_pos_to := Chunk.local_pos (pos_to + Int3.ofUSize3 Chunk.SIZES - Int3.ONE)
  match ChunkArray.pos_to_idx a.sizes chunk_pos_from with
  | none => .error (.PosIdConversion chunk_pos_from)
  | some _ =>
    match ChunkArray.pos_to_idx a.sizes (chunk_pos_to - Int3.ONE) with
    | none => .error (.PosIdConversion (chunk_pos_to - Int3.ONE))
    | some _ =>
      (SpaceIter.new chunk_pos_from chunk_pos_to).foldlM
        (fun (acc : Bool × ChunkArray) chunk_pos => do
          let idx := (ChunkArray.pos_to_idx a.sizes chunk_pos).getD 0
          let min_voxel_pos := Chunk.global_pos chunk_pos
          let end_voxel_pos := min_voxel_pos + Int3.ofUSize3 Chunk.SIZES
          let pf := Int3.compMax pos_from min_voxel_pos
          let pt := Int3.compMin pos_to end_voxel_pos
          let r ← (acc.2.chunks.getD idx (Chunk.new Int3.ZERO)).fill_voxels pf pt new_id
          let chunks2 := acc.2.chunks.set idx r.2
          if r.1 then
            let chunks3 := ChunkArray.drop_meshes_at chunks2
              (ChunkArray.get_adj_chunks_idxs a.sizes chunk_pos)
            pure (true, { acc.2 with chunks := chunks3 })
          else
            pure (acc.1, { acc.2 with chunks := chunks2 }))
        ((false, a) : Bool × ChunkArray)

/-- Well-formedness maintained by the array constructors: the chunk list has
`volume sizes` entries and the chunk at linear index `i` sits at position
`idx_to_pos i sizes`. -/
def ChunkArray.wf (a : ChunkArray) : Prop :=
  a.chunks.length = ChunkArray.volume a.sizes ∧
  ∀ i, ∀ h : i < a.chunks.length,
    (a.chunks.get ⟨i, h⟩).pos = ChunkArray.idx_to_pos i a.sizes

theorem Int3.ext3 (a b : Int3) (hx : a.x = b.x) (hy : a.y = b.y) (hz : a.z = b.z) :
    a = b := by
  cases a
  cases b
  simp_all

theorem pos_to_coord_idx_inv (sizes : USize3) (p : Int3) (c : USize3)
    (h : ChunkArray.pos_to_coord_idx sizes p = some c) :
    ChunkArray.coord_idx_to_pos sizes c = p ∧
      c.x < sizes.x ∧ c.y < sizes.y ∧ c.z < sizes.z := by
  simp only [ChunkArray.pos_to_coord_idx] at h
  split_ifs at h with hcond
  · obtain rfl : USize3.ofInt3 (p + (Int3.ofUSize3 sizes).divScalar 2) = c := by
      simpa using h
    simp only [Int3.ofUSize3, Int3.divScalar, Int3.add_x, Int3.add_y, Int3.add_z] at hcond
    obtain ⟨h1, h2, h3, h4, h5, h6⟩ := hcond
    refine ⟨Int3.ext3 _ _ ?_ ?_ ?_, ?_, ?_, ?_⟩ <;>
      simp only [ChunkArray.coord_idx_to_pos, Int3.ofUSize3, USize3.ofInt3, Int3.divScalar,
        Int3.add_x, Int3.add_y, Int3.add_z, Int3.sub_x, Int3.sub_y, Int3.sub_z] <;>
      omega

theorem coord_idx_to_idx_lt (sizes c : USize3)
    (h : c.x < sizes.x ∧ c.y < sizes.y ∧ c.z < sizes.z) :
    ChunkArray.coord_idx_to_idx sizes c < ChunkArray.volume sizes := by
  obtain ⟨hx, hy, hz⟩ := h
  simp only [ChunkArray.coord_idx_to_idx, ChunkArray.volume]
  have h1 : c.x * sizes.y + c.y < sizes.x * sizes.y := by
    calc c.x * sizes.y + c.y < c.x * sizes.y + sizes.y := by omega
    _ = (c.x + 1) * sizes.y := by ring
    _ ≤ sizes.x * sizes.y := Nat.mul_le_mul_right sizes.y (by omega)
  calc (c.x * sizes.y + c.y) * sizes.z + c.z
      < (c.x * sizes.y + c.y) * sizes.z + sizes.z := by omega
    _ = (c.x * sizes.y + c.y + 1) * sizes.z := by ring
    _ ≤ sizes.x * sizes.y * sizes.z := Nat.mul_le_mul_right sizes.z (by omega)

theorem idx_to_coord_idx_of_coord (sizes c : USize3)
    (h : c.x < sizes.x ∧ c.y < sizes.y ∧ c.z < sizes.z) :
    ChunkArray.idx_to_coord_idx (ChunkArray.coord_idx_to_idx sizes c) sizes = c := by
  obtain ⟨hx, hy, hz⟩ := h
  have hD : 0 < sizes.z := by omega
  have hH : 0 < sizes.y := by omega
  simp only [ChunkArray.coord_idx_to_idx, ChunkArray.idx_to_coord_idx]
  have hmod : ((c.x * sizes.y + c.y) * sizes.z + c.z) % sizes.z = c.z := by
    rw [Nat.mul_comm (c.x * sizes.y + c.y) sizes.z, Nat.mul_add_mod]
    exact Nat.mod_eq_of_lt hz
  have hdiv : ((c.x * sizes.y + c.y) * sizes.z + c.z) / sizes.z = c.x * sizes.y + c.y := by
    rw [Nat.mul_comm (c.x * sizes.y + c.y) sizes.z, Nat.mul_add_div hD]
    rw [Nat.div_eq_of_lt hz]
    omega
  have hmod2 : (c.x * sizes.y + c.y) % sizes.y = c.y := by
    rw [Nat.mul_comm c.x sizes.y, Nat.mul_add_mod]
    exact Nat.mod_eq_of_lt hy
  have hdiv2 : (c.x * sizes.y + c.y) / sizes.y = c.x := by
    rw [Nat.mul_comm c.x sizes.y, Nat.mul_add_div hH]
    rw [Nat.div_eq_of_lt hy]
    omega
  have hbig : ((c.x * sizes.y + c.y) * sizes.z + c.z) / (sizes.y * sizes.z) = c.x := by
    rw [Nat.mul_comm sizes.y sizes.z, ← Nat.div_div_eq_div_mul, hdiv, hdiv2]
  cases c with
  | mk cx cy cz =>
    simp only at hmod hdiv hmod2 hbig ⊢
    rw [hmod, hdiv, hmod2, hbig]

theorem pos_to_idx_spec (sizes : USize3) (p : Int3) (idx : Nat)
    (h : ChunkArray.pos_to_idx sizes p = some idx) :
    idx < ChunkArray.volume sizes ∧ ChunkArray.idx_to_pos idx sizes = p := by
  simp only [ChunkArray.pos_to_idx, Option.map_eq_some'] at h
  obtain ⟨c, hc, rfl⟩ := h
  obtain ⟨hcp, hcx, hcy, hcz⟩ := pos_to_coord_idx_inv sizes p c hc
  refine ⟨coord_idx_to_idx_lt sizes c ⟨hcx, hcy, hcz⟩, ?_⟩
  rw [ChunkArray.idx_to_pos, idx_to_coord_idx_of_coord sizes c ⟨hcx, hcy, hcz⟩, hcp]

/-- C9: totality of `get_voxel`.  For every well-formed array and every voxel
position, `get_voxel` returns a voxel exactly when the chunk position
containing `pos` lies inside the array, returns `None` otherwise, and never
reaches a panic (in particular the `unreachable!` arm is dead). -/
theorem C9_get_voxel_total (a : ChunkArray) (pos : Int3) (hwf : a.wf) :
    ((ChunkArray.pos_to_coord_idx a.sizes (Chunk.local_pos pos)).isSome →
      ∃ v, ChunkArray.get_voxel a pos = .ok (some v)) ∧
    (¬ (ChunkArray.pos_to_coord_idx a.sizes (Chunk.local_pos pos)).isSome →
      ChunkArray.get_voxel a pos = .ok none) ∧
    ChunkArray.get_voxel a pos ≠ .panicked := by
  obtain ⟨hlen, hpos⟩ := hwf
  by_cases hin : (ChunkArray.pos_to_coord_idx a.sizes (Chunk.local_pos pos)).isSome
  · obtain ⟨c, hc⟩ := Option.isSome_iff_exists.mp hin
    have hidx : ChunkArray.pos_to_idx a.sizes (Chunk.local_pos pos) =
        some (ChunkArray.coord_idx_to_idx a.sizes c) := by
      simp [ChunkArray.pos_to_idx, hc]
    obtain ⟨hlt, hinv⟩ := pos_to_idx_spec a.sizes (Chunk.local_pos pos) _ hidx
    have hltl : ChunkArray.coord_idx_to_idx a.sizes c < a.chunks.length := by
      rw [hlen]; exact hlt
    have hget : a.chunks.get? (ChunkArray.coord_idx_to_idx a.sizes c) =
        some (a.chunks.get ⟨_, hltl⟩) := List.get?_eq_get hltl
    have hcpos : (a.chunks.get ⟨_, hltl⟩).pos = Chunk.local_pos pos := by
      rw [hpos _ hltl, hinv]
    have hvg : (a.chunks.get ⟨_, hltl⟩).get_voxel_global pos =
        .Item ⟨(a.chunks.get ⟨_, hltl⟩).get_id
          (Chunk.voxel_local_idx (a.chunks.get ⟨_, hltl⟩).pos pos), pos⟩ := by
      rw [Chunk.get_voxel_global, if_pos hcpos.symm]
    have hres : ChunkArray.get_voxel a pos = .ok (some
        ⟨(a.chunks.get ⟨_, hltl⟩).get_id
          (Chunk.voxel_local_idx (a.chunks.get ⟨_, hltl⟩).pos pos), pos⟩) := by
      rw [ChunkArray.get_voxel]
      simp only [hidx, hget, hvg]
    refine ⟨fun _ => ⟨_, hres⟩, fun hcon => absurd hin hcon, ?_⟩
    rw [hres]
    intro hcon
    cases hcon
  · have hnone : ChunkArray.pos_to_coord_idx a.sizes (Chunk.local_pos pos) = none :=
      Option.not_isSome_iff_eq_none.mp hin
    have hres : ChunkArray.get_voxel a pos = .ok none := by
      rw [ChunkArray.get_voxel]
      simp only [ChunkArray.pos_to_idx, hnone]
      rfl
    refine ⟨fun hcon => absurd hcon hin, fun _ => hres, ?_⟩
    rw [hres]
    intro hcon
    cases hcon

/-- `Default for ChunkArray` (chunk_array.rs:58-71): empty chunks and sizes,
no tasks, LOD threshold 5.8, no handles. -/
def ChunkArray.new_empty : ChunkArray :=
  ⟨[], ⟨0, 0, 0⟩, [], [], [], 29 / 5, none, none⟩

/-- Witness for C9 on a 1×1×1 well-formed array at voxel position (3,3,3). -/
theorem C9_get_voxel_total_witness :
    ((ChunkArray.pos_to_coord_idx
        (ChunkArray.mk [Chunk.new Int3.ZERO] ⟨1, 1, 1⟩ [] [] [] (29 / 5) none none).sizes
        (Chunk.local_pos ⟨3, 3, 3⟩)).isSome →
      ∃ v, ChunkArray.get_voxel
        (ChunkArray.mk [Chunk.new Int3.ZERO] ⟨1, 1, 1⟩ [] [] [] (29 / 5) none none)
        ⟨3, 3, 3⟩ = .ok (some v)) ∧
    (¬ (ChunkArray.pos_to_coord_idx
        (ChunkArray.mk [Chunk.new Int3.ZERO] ⟨1, 1, 1⟩ [] [] [] (29 / 5) none none).sizes
        (Chunk.local_pos ⟨3, 3, 3⟩)).isSome →
      ChunkArray.get_voxel
        (ChunkArray.mk [Chunk.new Int3.ZERO] ⟨1, 1, 1⟩ [] [] [] (29 / 5) none none)
        ⟨3, 3, 3⟩ = .ok none) ∧
    ChunkArray.get_voxel
      (ChunkArray.mk [Chunk.new Int3.ZERO] ⟨1, 1, 1⟩ [] [] [] (29 / 5) none none)
      ⟨3, 3, 3⟩ ≠ .panicked :=
  C9_get_voxel_total _ ⟨3, 3, 3⟩ (by constructor <;> decide)

/-- A generated uniform-air chunk with an uploaded LOD-0 mesh (the state of a
rendered chunk before an edit). -/
def airChunkWithMesh (pos : Int3) : Chunk :=
  ⟨pos, .AllSame 0, [], [0], some 0, true⟩

/-- A (2,1,1) array of two rendered air chunks at positions (-1,0,0) and
(0,0,0). -/
def twoChunkAirArray : ChunkArray :=
  ⟨[airChunkWithMesh ⟨-1, 0, 0⟩, airChunkWithMesh ⟨0, 0, 0⟩],
   ⟨2, 1, 1⟩, [], [], [], 29 / 5, none, none⟩

/-- C2 (failing input): `ChunkArray::set_voxel` at the border voxel (0,0,0)
of the chunk at (0,0,0) changes state (air -> stone) and drops the edited
chunk's mesh cache, but the loaded face-adjacent neighbor at (-1,0,0) keeps
its active LOD and mesh cache, contradicting the claim (and the function's
own doc comment). -/
theorem C2_set_voxel_keeps_neighbor_mesh :
    ∃ arr2, ChunkArray.set_voxel twoChunkAirArray ⟨0, 0, 0⟩ 1 = .ok (0, arr2) ∧
      (arr2.chunks.getD 1 (Chunk.new Int3.ZERO)).active_lod = none ∧
      (arr2.chunks.getD 0 (Chunk.new Int3.ZERO)).active_lod = some 0 ∧
      (arr2.chunks.getD 0 (Chunk.new Int3.ZERO)).mesh_lods = [0] :=
  ⟨_, rfl, rfl, rfl, rfl⟩

/-- Modelled from the spec: `cfg::terrain::MAX_TASKS` (the `cfg` module is
not in the sources); the spec's task-saturation scenario uses 4.  Every
theorem below holds for any positive value. -/
def cfg.terrain.MAX_TASKS : Nat := 4

/-- `ChunkArray::can_start_tasks` (chunk_array.rs:883-886): no save handle,
no load handle, and `low_tasks.len() + full_tasks.len() <= MAX_TASKS`.
Faithful to the source: `voxels_gen_tasks` is not counted. -/
def ChunkArray.can_start_tasks (a : ChunkArray) : Bool :=
  a.saving_handle.isNone && a.reading_handle.isNone &&
  decide (a.low_tasks.length + a.full_tasks.length ≤ cfg.terrain.MAX_TASKS)

/-- Counterexample to C3 as stated: a state with five outstanding voxel-gen
tasks, no mesh tasks and no handles; `can_start_tasks` returns `true`
although voxel-gen + full + low = 5 > MAX_TASKS. -/
theorem C3_can_start_tasks_counterexample :
    ChunkArray.can_start_tasks
      ⟨[], ⟨0, 0, 0⟩, [], [],
       [⟨0, 0, 0⟩, ⟨1, 0, 0⟩, ⟨2, 0, 0⟩, ⟨3, 0, 0⟩, ⟨4, 0, 0⟩], 29 / 5, none, none⟩ = true ∧
    cfg.terrain.MAX_TASKS <
      (ChunkArray.mk [] ⟨0, 0, 0⟩ [] []
        [⟨0, 0, 0⟩, ⟨1, 0, 0⟩, ⟨2, 0, 0⟩, ⟨3, 0, 0⟩, ⟨4, 0, 0⟩] (29 / 5) none
        none).voxels_gen_tasks.length +
      (ChunkArray.mk [] ⟨0, 0, 0⟩ [] []
        [⟨0, 0, 0⟩, ⟨1, 0, 0⟩, ⟨2, 0, 0⟩, ⟨3, 0, 0⟩, ⟨4, 0, 0⟩] (29 / 5) none
        none).full_tasks.length +
      (ChunkArray.mk [] ⟨0, 0, 0⟩ [] []
        [⟨0, 0, 0⟩, ⟨1, 0, 0⟩, ⟨2, 0, 0⟩, ⟨3, 0, 0⟩, ⟨4, 0, 0⟩] (29 / 5) none
        none).low_tasks.length := by
  constructor
  · rfl
  · decide

/-- C3 (amended): `can_start_tasks` returns `true` exactly when no save
handle and no load handle is in flight and the number of outstanding
full-mesh tasks plus low-mesh tasks is at most `MAX_TASKS`; outstanding
voxel-generation tasks are not counted. -/
theorem C3_can_start_tasks_amended (a : ChunkArray) :
    ChunkArray.can_start_tasks a = true ↔
      a.saving_handle = none ∧ a.reading_handle = none ∧
      a.low_tasks.length + a.full_tasks.length ≤ cfg.terrain.MAX_TASKS := by
  simp [ChunkArray.can_start_tasks, Option.isNone_iff_eq_none, and_assoc]

/-- Ghost view of the tokio runtime for the save path: ids of spawned save
futures not yet completed, plus a fresh-id counter. -/
structure SaveRuntime where
  outstanding : List Nat
  fresh : Nat
deriving DecidableEq

/-- The save blocks of `ChunkArray::update` (chunk_array.rs:1042-1052): on
Ctrl+S, spawn a save future and store its handle — overwriting whatever
handle was stored; then, if the stored handle reports finished, take and
await it.  `finished` says which spawned futures have completed. -/
def ChunkArray.update_save (a : ChunkArray) (rt : SaveRuntime)
    (save_pressed : Bool) (finished : Nat → Bool) : ChunkArray × SaveRuntime :=
  let step1 : ChunkArray × SaveRuntime :=
    if save_pressed then
      ({ a with saving_handle := some rt.fresh },
       ⟨rt.fresh :: rt.outstanding, rt.fresh + 1⟩)
    else (a, rt)
  match step1.1.saving_handle with
  | some handle =>
    if finished handle then
      ({ step1.1 with saving_handle := none },
       ⟨step1.2.outstanding.erase handle, step1.2.fresh⟩)
    else step1
  | none => step1

/-- Counterexample to C4 as stated: pressing save twice while the first save
future never completes.  The second request is not skipped: the stored
handle changes from future 0 to future 1, and two save futures are
outstanding at once. -/
theorem C4_save_overwrite_counterexample :
    (ChunkArray.update_save ChunkArray.new_empty ⟨[], 0⟩ true
      (fun _ => false)).1.saving_handle = some 0 ∧
    (ChunkArray.update_save
      (ChunkArray.update_save ChunkArray.new_empty ⟨[], 0⟩ true (fun _ => false)).1
      (ChunkArray.update_save ChunkArray.new_empty ⟨[], 0⟩ true (fun _ => false)).2
      true (fun _ => false)).1.saving_handle = some 1 ∧
    (ChunkArray.update_save
      (ChunkArray.update_save ChunkArray.new_empty ⟨[], 0⟩ true (fun _ => false)).1
      (ChunkArray.update_save ChunkArray.new_empty ⟨[], 0⟩ true (fun _ => false)).2
      true (fun _ => false)).2.outstanding = [1, 0] := by
  refine ⟨rfl, rfl, rfl⟩

/-- C4 (amended): the `saving_handle` field stores at most one handle, but a
save request issued while the previous save future is incomplete is not
skipped: it spawns a fresh future, replaces the stored handle with the new
one, and leaves the previous future outstanding (abandoned, not awaited). -/
theorem C4_save_request_replaces_handle (a : ChunkArray) (rt : SaveRuntime)
    (h0 : Nat) (finished : Nat → Bool)
    (_hh : a.saving_handle = some h0) (hmem : h0 ∈ rt.outstanding)
    (hfin : finished rt.fresh = false) :
    (ChunkArray.update_save a rt true finished).1.saving_handle = some rt.fresh ∧
    rt.fresh ∈ (ChunkArray.update_save a rt true finished).2.outstanding ∧
    h0 ∈ (ChunkArray.update_save a rt true finished).2.outstanding := by
  have hres : ChunkArray.update_save a rt true finished =
      ({ a with saving_handle := some rt.fresh },
       ⟨rt.fresh :: rt.outstanding, rt.fresh + 1⟩) := by
    simp [ChunkArray.update_save, hfin]
  rw [hres]
  exact ⟨rfl, List.mem_cons_self _ _, List.mem_cons_of_mem _ hmem⟩

/-- Witness for C4's amended theorem: one save already in flight (future 0),
save pressed again, nothing finished. -/
theorem C4_save_request_replaces_handle_witness :
    (ChunkArray.update_save
      { ChunkArray.new_empty with saving_handle := some 0 }
      ⟨[0], 1⟩ true (fun _ => false)).1.saving_handle = some 1 ∧
    1 ∈ (ChunkArray.update_save
      { ChunkArray.new_empty with saving_handle := some 0 }
      ⟨[0], 1⟩ true (fun _ => false)).2.outstanding ∧
    0 ∈ (ChunkArray.update_save
      { ChunkArray.new_empty with saving_handle := some 0 }
      ⟨[0], 1⟩ true (fun _ => false)).2.outstanding :=
  C4_save_request_replaces_handle _ _ 0 _ rfl (List.mem_singleton.mpr rfl) rfl

/-- `UpdateError` (chunk_array.rs:1069-1076). -/
inductive UpdateError where
  | Join
  | Save
deriving DecidableEq

/-- Modelled from the spec: `Chunk::from_voxels` builds a generated chunk
with a verified id buffer. -/
def Chunk.from_voxels (ids : List Nat) (chunk_pos : Int3) : Chunk :=
  ⟨chunk_pos, .Default, ids, [], none, true⟩

/-- Modelled from the spec: `Chunk::new_same_filled` builds a generated
uniform chunk. -/
def Chunk.new_same_filled (chunk_pos : Int3) (id : Nat) : Chunk :=
  ⟨chunk_pos, .AllSame id, [], [], none, true⟩

/-- The body of the load task spawned by `ChunkArray::update`
(`read_from_file`): decode every chunk blob with
`array_filltype_from_bytes`.  A decode `expect`/`assert!` panics the task;
tokio then reports the panic through the join handle (`Except.error`). -/
def ChunkArray.read_task (sizes : USize3) (blobs : List (List Nat)) :
    Except Unit (USize3 × List (List Nat × FillType)) :=
  match blobs.mapM ChunkArray.array_filltype_from_bytes with
  | some arr => .ok (sizes, arr)
  | none => .error ()

/-- `ChunkArray::apply_new` (chunk_array.rs:372-390): assert the sizes match
(`none` models the panic), drop all tasks and rebuild every chunk at its
linear position. -/
def ChunkArray.apply_new (a : ChunkArray) (sizes : USize3)
    (chunk_arr : List (List Nat × FillType)) : Option ChunkArray :=
  if ChunkArray.volume sizes = chunk_arr.length then
    some { a with
      full_tasks := []
      low_tasks := []
      voxels_gen_tasks := []
      sizes := sizes
      chunks := chunk_arr.enum.map fun ix =>
        match ix.2.2 with
        | .Default => Chunk.from_voxels ix.2.1 (ChunkArray.idx_to_pos ix.1 sizes)
        | .AllSame id => Chunk.new_same_filled (ChunkArray.idx_to_pos ix.1 sizes) id }
  else none

/-- Result of one run of the load-finish block: `ok`, an `UpdateError`, or a
driver panic. -/
inductive UpdateStatus where
  | ok
  | err (e : UpdateError)
  | panicked
deriving DecidableEq

/-- The load-finish block of `ChunkArray::update` (chunk_array.rs:1059-1063):
take the finished read handle object and `handle.await??` its result — a
panicked task surfaces as `UpdateError::Join` and leaves the array alone; a
successful read is applied with `apply_new`. -/
def ChunkArray.update_load_finish (a : ChunkArray)
    (result : Except Unit (USize3 × List (List Nat × FillType))) :
    UpdateStatus × ChunkArray :=
  let a1 := { a with reading_handle := none }
  match result with
  | .error _ => (.err .Join, a1)
  | .ok (sizes, arr) =>
    match ChunkArray.apply_new a1 sizes arr with
    | some a2 => (.ok, a2)
    | none => (.panicked, a1)

theorem mapM_eq_none_of_mem {α β : Type} (f : α → Option β) (l : List α) (x : α)
    (hx : x ∈ l) (hf : f x = none) : l.mapM f = none := by
  induction l with
  | nil => simp at hx
  | cons y ys ih =>
    rcases List.mem_cons.mp hx with rfl | hx2
    · rw [List.mapM_cons, hf]
      simp
    · rw [List.mapM_cons, ih hx2]
      cases hy : f y <;> simp

/-- Counterexample to C5 as stated: a truncated (empty) chunk blob makes the
load task panic during decode; the update path reports
`UpdateError::Join` — not `UpdateError::Save` as the claim says. -/
theorem C5_load_failure_counterexample :
    (ChunkArray.update_load_finish
      { ChunkArray.new_empty with reading_handle := some 0 }
      (ChunkArray.read_task ⟨1, 1, 1⟩ [[]])).1 = .err UpdateError.Join ∧
    UpdateError.Join ≠ UpdateError.Save := by
  constructor
  · rfl
  · decide

/-- C5 (amended): if decoding any chunk blob during a load fails (truncated
or corrupt bytes, invalid ids, or a wrong voxel count), the load task
panics, the update path aborts with `UpdateError::Join` (the panic surfaces
as a join error, not as `UpdateError::Save`), and the existing chunk array —
its sizes and all its chunks — is left unchanged. -/
theorem C5_load_failure_atomicity (a : ChunkArray) (sizes : USize3)
    (blobs : List (List Nat)) (b : List Nat) (hb : b ∈ blobs)
    (hbad : ChunkArray.array_filltype_from_bytes b = none) :
    (ChunkArray.update_load_finish a (ChunkArray.read_task sizes blobs)).1 =
      .err UpdateError.Join ∧
    (ChunkArray.update_load_finish a (ChunkArray.read_task sizes blobs)).2.chunks =
      a.chunks ∧
    (ChunkArray.update_load_finish a (ChunkArray.read_task sizes blobs)).2.sizes =
      a.sizes := by
  have hnone : blobs.mapM ChunkArray.array_filltype_from_bytes = none :=
    mapM_eq_none_of_mem _ blobs b hb hbad
  have hrt : ChunkArray.read_task sizes blobs = .error () := by
    rw [ChunkArray.read_task, hnone]
  rw [hrt]
  exact ⟨rfl, rfl, rfl⟩

/-- Witness for C5's amended theorem: a load of one empty (truncated) blob
into a fresh array. -/
theorem C5_load_failure_atomicity_witness :
    (ChunkArray.update_load_finish ChunkArray.new_empty
      (ChunkArray.read_task ⟨1, 1, 1⟩ [[]])).1 = .err UpdateError.Join ∧
    (ChunkArray.update_load_finish ChunkArray.new_empty
      (ChunkArray.read_task ⟨1, 1, 1⟩ [[]])).2.chunks = ChunkArray.new_empty.chunks ∧
    (ChunkArray.update_load_finish ChunkArray.new_empty
      (ChunkArray.read_task ⟨1, 1, 1⟩ [[]])).2.sizes = ChunkArray.new_empty.sizes :=
  C5_load_failure_atomicity ChunkArray.new_empty ⟨1, 1, 1⟩ [[]] []
    (List.mem_singleton.mpr rfl) rfl

/-- `vec3` over exact rationals (the `f32` vector of `math_linear`). -/
structure Rat3 where
  x : Rat
  y : Rat
  z : Rat
deriving DecidableEq

def Rat3.addv (a b : Rat3) : Rat3 := ⟨a.x + b.x, a.y + b.y, a.z + b.z⟩

def Rat3.subv (a b : Rat3) : Rat3 := ⟨a.x - b.x, a.y - b.y, a.z - b.z⟩

instance : Add Rat3 := ⟨Rat3.addv⟩

instance : Sub Rat3 := ⟨Rat3.subv⟩

/-- `vec3::all(q)`. -/
def Rat3.all (q : Rat) : Rat3 := ⟨q, q, q⟩

/-- Scalar multiple (`cam_pos / chunk_size` is `scale (1/chunk_size)`). -/
def Rat3.scale (k : Rat) (v : Rat3) : Rat3 := ⟨k * v.x, k * v.y, k * v.z⟩

/-- `vec3::from(Int3)`. -/
def Rat3.ofInt3 (p : Int3) : Rat3 := ⟨(p.x : Rat), (p.y : Rat), (p.z : Rat)⟩

/-- Squared Euclidean norm (`vec3::sqr`, and `len()` squared). -/
def Rat3.sqnorm (v : Rat3) : Rat := v.x ^ 2 + v.y ^ 2 + v.z ^ 2

theorem Rat3.sqnorm_nonneg (v : Rat3) : 0 ≤ v.sqnorm := by
  rw [Rat3.sqnorm]
  positivity

/-- `Chunk::SIZE.ilog2()` for the fixed `S = 32`. -/
def Chunk.SIZE_ILOG2 : Nat := 5

/-- Exact squared chunk-space distance from the camera to the chunk center
(`desired_lod_iter` body, chunk_array.rs:497-501):
`|chunk_pos - cam_pos / GLOBAL_SIZE + 0.5|²`.  `Chunk::GLOBAL_SIZE` comes
from the missing `cfg`, so the chunk's world-space side is a parameter. -/
def ChunkArray.desired_lod_dist_sq (global_size : Rat) (cam_pos : Rat3)
    (chunk_pos : Int3) : Rat :=
  Rat3.sqnorm (Rat3.ofInt3 chunk_pos - Rat3.scale (1 / global_size) cam_pos +
    Rat3.all (1 / 2))

/-- `ChunkArray::desired_lod_iter` body for one chunk
(chunk_array.rs:494-507), the `f32` arithmetic taken exactly:
`min(floor(dist / threashold), ilog2 S)`, with the floor expressed through
squared quantities — `floor(dist/t)` is the greatest `k` with
`k²·t² ≤ dist²`. -/
def ChunkArray.desired_lod (global_size : Rat) (cam_pos : Rat3) (threashold : Rat)
    (chunk_pos : Int3) : Nat :=
  min
    (Nat.findGreatest
      (fun k => (k : Rat) ^ 2 * threashold ^ 2 ≤
        ChunkArray.desired_lod_dist_sq global_size cam_pos chunk_pos)
      (Chunk.SIZE_ILOG2 + 1))
    Chunk.SIZE_ILOG2

/-- `ChunkArray::pos_bounds`. -/
def ChunkArray.pos_bounds (sizes : USize3) : Int3 × Int3 :=
  (ChunkArray.coord_idx_to_pos sizes ⟨0, 0, 0⟩, ChunkArray.coord_idx_to_pos sizes sizes)

/-- `ChunkArray::pos_iter`. -/
def ChunkArray.pos_iter (sizes : USize3) : List Int3 :=
  SpaceIter.new (ChunkArray.pos_bounds sizes).1 (ChunkArray.pos_bounds sizes).2

/-- `ChunkArray::desired_lod_iter` over all chunk positions. -/
def ChunkArray.desired_lod_list (global_size : Rat) (sizes : USize3)
    (cam_pos : Rat3) (threashold : Rat) : List Nat :=
  (ChunkArray.pos_iter sizes).map
    (ChunkArray.desired_lod global_size cam_pos threashold)

/-- Squared distance from the camera to a chunk's global position — the
`sort_by` key of `get_targets_sorted` (chunk_array.rs:571-580). -/
def ChunkArray.sq_dist_to_cam (cam_pos : Rat3) (chunk_pos : Int3) : Rat :=
  Rat3.sqnorm (cam_pos - Rat3.ofInt3 (Chunk.global_pos chunk_pos))

/-- `ChunkArray::get_targets_sorted` (chunk_array.rs:563-583): pair every
chunk with its desired LOD and sort by ascending squared distance from the
camera to the chunk's global position (a stable merge sort models Rust's
`sort_by`; the adjacency views carry no data relevant to the ordering and
are omitted). -/
def ChunkArray.get_targets_sorted (global_size : Rat) (chunks : List Chunk)
    (sizes : USize3) (cam_pos : Rat3) (lod_threashold : Rat) : List (Chunk × Nat) :=
  (chunks.zip (ChunkArray.desired_lod_list global_size sizes cam_pos lod_threashold)).mergeSort
    fun l r => decide (ChunkArray.sq_dist_to_cam cam_pos l.1.pos ≤
      ChunkArray.sq_dist_to_cam cam_pos r.1.pos)

/-- C7: the work list built by `get_targets_sorted` is ordered by ascending
squared Euclidean distance from the camera, so every earlier entry is at
most as far from the camera as every later one. -/
theorem C7_targets_sorted (global_size : Rat) (chunks : List Chunk) (sizes : USize3)
    (cam_pos : Rat3) (lod_threashold : Rat) :
    (ChunkArray.get_targets_sorted global_size chunks sizes cam_pos
      lod_threashold).Pairwise
      (fun l r => ChunkArray.sq_dist_to_cam cam_pos l.1.pos ≤
        ChunkArray.sq_dist_to_cam cam_pos r.1.pos) := by
  have hs := @List.sorted_mergeSort (Chunk × Nat)
    (fun l r => decide (ChunkArray.sq_dist_to_cam cam_pos l.1.pos ≤
      ChunkArray.sq_dist_to_cam cam_pos r.1.pos))
    (fun a b c h1 h2 => by
      simp only [decide_eq_true_eq] at h1 h2 ⊢
      exact le_trans h1 h2)
    (fun a b => by
      simp only [Bool.or_eq_true, decide_eq_true_eq]
      exact le_total _ _)
    (chunks.zip (ChunkArray.desired_lod_list global_size sizes cam_pos lod_threashold))
  rw [ChunkArray.get_targets_sorted]
  exact hs.imp fun h => by simpa using h

/-- C8: the desired LOD equals `min(floor(dist / threshold), log2 S)` where
`dist` is the Euclidean (real) distance from the camera to the chunk center
in chunk-size units; and in the spec's concrete scenario — `threshold = 5.8`
and `S = 32` — a chunk whose center sits at chunk-space distance 12 gets
LOD 2. -/
theorem C8_desired_lod_formula (global_size : Rat) (cam_pos : Rat3)
    (threashold : Rat) (chunk_pos : Int3) (ht : 0 < threashold) :
    ChunkArray.desired_lod global_size cam_pos threashold chunk_pos =
      min (Nat.floor
        (Real.sqrt ((ChunkArray.desired_lod_dist_sq global_size cam_pos chunk_pos : Rat) : ℝ) /
          ((threashold : Rat) : ℝ))) 5 ∧
    (threashold = 29 / 5 →
      ChunkArray.desired_lod_dist_sq global_size cam_pos chunk_pos = 144 →
      ChunkArray.desired_lod global_size cam_pos threashold chunk_pos = 2) := by
  constructor
  · have hd2 : (0 : Rat) ≤ ChunkArray.desired_lod_dist_sq global_size cam_pos chunk_pos :=
      Rat3.sqnorm_nonneg _
    have htR : (0 : ℝ) < (threashold : ℝ) := by exact_mod_cast ht
    have hd2R : (0 : ℝ) ≤
        ((ChunkArray.desired_lod_dist_sq global_size cam_pos chunk_pos : Rat) : ℝ) := by
      exact_mod_cast hd2
    have hR : (0 : ℝ) ≤
        Real.sqrt ((ChunkArray.desired_lod_dist_sq global_size cam_pos chunk_pos : Rat) : ℝ) /
          ((threashold : Rat) : ℝ) :=
      div_nonneg (Real.sqrt_nonneg _) (le_of_lt htR)
    have key : ∀ k : Nat,
        ((k : Rat) ^ 2 * threashold ^ 2 ≤
          ChunkArray.desired_lod_dist_sq global_size cam_pos chunk_pos) ↔
        k ≤ Nat.floor
          (Real.sqrt ((ChunkArray.desired_lod_dist_sq global_size cam_pos chunk_pos : Rat) : ℝ) /
            ((threashold : Rat) : ℝ)) := by
      intro k
      rw [Nat.le_floor_iff hR, le_div_iff₀ htR,
        Real.le_sqrt (by positivity) hd2R, mul_pow]
      constructor
      · intro h
        exact_mod_cast h
      · intro h
        exact_mod_cast h
    have hFG : Nat.findGreatest
        (fun k => (k : Rat) ^ 2 * threashold ^ 2 ≤
          ChunkArray.desired_lod_dist_sq global_size cam_pos chunk_pos)
        (Chunk.SIZE_ILOG2 + 1) =
        min (Nat.floor
          (Real.sqrt ((ChunkArray.desired_lod_dist_sq global_size cam_pos chunk_pos : Rat) : ℝ) /
            ((threashold : Rat) : ℝ))) (Chunk.SIZE_ILOG2 + 1) := by
      rcases le_or_lt (Chunk.SIZE_ILOG2 + 1)
        (Nat.floor
          (Real.sqrt ((ChunkArray.desired_lod_dist_sq global_size cam_pos chunk_pos : Rat) : ℝ) /
            ((threashold : Rat) : ℝ))) with h6 | h6
      · rw [min_eq_right h6]
        exact le_antisymm (Nat.findGreatest_le _)
          (Nat.le_findGreatest le_rfl ((key _).mpr h6))
      · rw [min_eq_left (le_of_lt h6)]
        rw [Nat.findGreatest_eq_iff]
        refine ⟨by omega, fun _ => (key _).mpr le_rfl, fun n hn hn6 hP => ?_⟩
        have := (key n).mp hP
        omega
    rw [ChunkArray.desired_lod, hFG, Chunk.SIZE_ILOG2]
    omega
  · intro h1 h2
    rw [ChunkArray.desired_lod, h1, h2, Chunk.SIZE_ILOG2]
    norm_num [Nat.findGreatest]

/-- Witness for C8 with chunk size 1, the camera at (12.5, 0.5, 0.5),
threshold 5.8 and the chunk at the origin (center distance 12). -/
theorem C8_desired_lod_formula_witness :
    ChunkArray.desired_lod 1 ⟨25 / 2, 1 / 2, 1 / 2⟩ (29 / 5) Int3.ZERO =
      min (Nat.floor
        (Real.sqrt ((ChunkArray.desired_lod_dist_sq 1 ⟨25 / 2, 1 / 2, 1 / 2⟩ Int3.ZERO : Rat) : ℝ) /
          (((29 / 5 : Rat) : Rat) : ℝ))) 5 ∧
    ((29 / 5 : Rat) = 29 / 5 →
      ChunkArray.desired_lod_dist_sq 1 ⟨25 / 2, 1 / 2, 1 / 2⟩ Int3.ZERO = 144 →
      ChunkArray.desired_lod 1 ⟨25 / 2, 1 / 2, 1 / 2⟩ (29 / 5) Int3.ZERO = 2) :=
  C8_desired_lod_formula 1 ⟨25 / 2, 1 / 2, 1 / 2⟩ (29 / 5) Int3.ZERO (by norm_num)
